import Mathlib

/-!
# restrictor: sliding-window rate limiter

A shallow embedding of `limiter.go` and `restrictor.go`.

* `uint32` values are natural numbers below `u32 = 2^32`; every arithmetic
  operation of the source that can wrap carries an explicit `% u32`.
* `time.Time` is the integer `now.Unix()` (seconds since the epoch);
  `uint32(now.Unix())` is `unixTs`.
* The Go map `Buckets map[uint32]uint32` is an association list of
  `(timestamp, count)` entries; `range` visits the entries of the list.
* A Go runtime panic (integer division by zero) is the result `none`.
* A `time.Duration` is its integer number of nanoseconds; `Seconds()` is
  computed as Go does, in `float64` with round to nearest even, here in exact
  integer arithmetic on mantissa and exponent.
* The `Store` interface is a record of state-passing operations over an
  abstract store state.
-/

namespace restrictor

/-! ## limiter.go -/

/-- Number of values of a `uint32`. -/
def u32 : Nat := 4294967296

/-- The value `math.MaxUint32`. -/
def MaxUint32 : Nat := 4294967295

/-- The message `Limiter`: `FullUntil uint32`, `Buckets map[uint32]uint32`. -/
structure Limiter where
  FullUntil : Nat
  Buckets : List (Nat × Nat)
deriving DecidableEq, Repr

/-- The four results of `Limiter.LimitReached`. -/
structure Verdict where
  reached : Bool
  count : Nat
  lmtChanged : Bool
  expireChanged : Bool
deriving DecidableEq, Repr

/-- The constructor `NewLimiter`: `&Limiter{FullUntil: 0, Buckets: make(map[uint32]uint32)}`. -/
def NewLimiter : Limiter := ⟨0, []⟩

/-- The conversion `uint32(now.Unix())`: the low 32 bits of the Unix time. -/
def unixTs (now : Int) : Nat := (now % 4294967296).toNat

/-- The subtraction `a - b` on `uint32`. -/
def sub32 (a b : Nat) : Nat := (a + (u32 - b % u32)) % u32

/-- The addition `a + b` on `uint32`. -/
def add32 (a b : Nat) : Nat := (a + b) % u32

/-- The loop `for t, count := range lmt.Buckets` of `LimitReached`, started
with the accumulators `total` and `oldest`: an entry with `t <= boundary` is
deleted, any other entry is kept, lowers `oldest` and is added to `total`.
Returns `(total, oldest, remaining buckets)`. -/
def pruneScan (boundary : Nat) :
    List (Nat × Nat) → Nat → Nat → Nat × Nat × List (Nat × Nat)
  | [], total, oldest => (total, oldest, [])
  | (t, count) :: rest, total, oldest =>
    if t ≤ boundary then pruneScan boundary rest total oldest
    else
      let r := pruneScan boundary rest (add32 total count) (if oldest > t then t else oldest)
      (r.1, r.2.1, (t, count) :: r.2.2)

/-- The statement `lmt.Buckets[k]++`: an absent key reads as 0. -/
def bucketIncr (k : Nat) : List (Nat × Nat) → List (Nat × Nat)
  | [] => [(k, 1)]
  | (t, c) :: rest =>
    if t = k then (t, add32 c 1) :: rest else (t, c) :: bucketIncr k rest

/-- The part of `LimitReached` after the `FullUntil` test (the prune-and-scan
branch), at the timestamp `ts`; `none` is the division-by-zero panic of
`ts % interval`. -/
def scanBranch (lmt : Limiter) (window upperLimit interval ts : Nat) :
    Option (Limiter × Verdict) :=
  let boundary := sub32 ts window
  let r := pruneScan boundary lmt.Buckets 0 MaxUint32
  if r.1 < upperLimit then
    if interval = 0 then none
    else
      let normalizedTS := ts - ts % interval
      some (⟨0, bucketIncr normalizedTS r.2.2⟩, ⟨false, add32 r.1 1, true, true⟩)
  else
    some (⟨add32 r.2.1 window, r.2.2⟩, ⟨true, upperLimit, true, false⟩)

/-- The method `Limiter.LimitReached(window, upperLimit, interval, now)`.
Returns the limiter after the call and the four results. -/
def LimitReached (lmt : Limiter) (window upperLimit interval : Nat) (now : Int) :
    Option (Limiter × Verdict) :=
  if upperLimit = 0 then some (lmt, ⟨true, 0, false, false⟩)
  else
    let ts := unixTs now
    if ts < lmt.FullUntil then some (lmt, ⟨true, upperLimit, false, false⟩)
    else scanBranch lmt window upperLimit interval ts

/-- The loop of `GetCount`: adds the count of every entry with `t > boundary`. -/
def countLoop (boundary : Nat) : List (Nat × Nat) → Nat → Nat
  | [], total => total
  | (t, count) :: rest, total =>
    if t > boundary then countLoop boundary rest (add32 total count)
    else countLoop boundary rest total

/-- The method `Limiter.GetCount(window, now)`; the limiter is not written. -/
def GetCount (lmt : Limiter) (window : Nat) (now : Int) : Nat :=
  countLoop (sub32 (unixTs now) window) lmt.Buckets 0

/-! ## restrictor.go -/

/-- The struct `Restrictor` without its `store` field, which is passed
separately; `pfx` is the field `prefix`. -/
structure Restrictor where
  window : Nat
  upperLimit : Nat
  bucketSpan : Nat
  pfx : String
deriving DecidableEq, Repr

/-- One call of a method of the `Store` interface, with its arguments. -/
inductive StoreCall where
  | tryLock (key token : String)
  | getLimiter (key : String)
  | setLimiter (key : String) (lmt : Limiter) (ttl : Int)
  | unlock (key token : String)
deriving DecidableEq, Repr

/-- The interface `Store`, over an abstract store state: each method returns
the store state after the call and the results the restrictor reads.
`GetLimiter` returns `(lmt, expireTime, found)`, the expiry in nanoseconds
since the epoch; the results of `SetLimiter` and `Unlock` are discarded by
the restrictor. -/
structure Store (σ : Type) where
  TryLock : σ → String → String → σ × Bool × Option String
  Unlock : σ → String → String → σ
  GetLimiter : σ → String → σ × Limiter × Int × Bool
  SetLimiter : σ → String → Limiter → Int → σ

/-- What a restrictor call leaves behind: the store state, the store methods
it called in order, and the returned `(reached, count, err)`; `ret = none`
is a panic. -/
structure Outcome (σ : Type) where
  store : σ
  calls : List StoreCall
  ret : Option (Bool × Nat × Option String)

/-! ### `time.Duration.Seconds` and the conversions of its result

`Duration.Seconds()` is `float64(d / Second) + float64(d % Second) / 1e9`. A
non-negative `float64` is the pair `(m, e)` of a mantissa and a binary exponent,
with value `m * 2^e`; each arithmetic operation rounds its exact result to 53
bits, ties to even. Negative durations mirror the positive ones. -/

/-- The quotient `N / D` rounded to the nearest integer, ties to even. -/
def roundHalfEven (N D : Nat) : Nat :=
  if 2 * (N % D) > D ∨ (2 * (N % D) = D ∧ (N / D) % 2 = 1) then N / D + 1 else N / D

/-- The fraction `p / (q * 2^e)` as a pair `(numerator, denominator)`. -/
def scaled (p q : Nat) (e : Int) : Nat × Nat :=
  if 0 ≤ e then (p, q * 2 ^ e.toNat) else (p * 2 ^ (-e).toNat, q)

/-- The binary exponent `e` of the `float64` nearest to `p / q`: the one with
`2^52 ≤ p / (q * 2^e) < 2^53`, searched downwards from `e` in at most `fuel`
steps. -/
def normExp (p q : Nat) : Nat → Int → Int
  | 0, e => e
  | fuel + 1, e =>
    if (scaled p q e).1 / (scaled p q e).2 < 4503599627370496 then normExp p q fuel (e - 1)
    else e

/-- The `float64` nearest to `p / q` (round to nearest, ties to even), as
`(m, e)`. The search starts at `e = 12` and takes up to 200 steps, which
reaches every quotient with `2^-136 < p / q < 2^65`: all the quotients and sums
of `Duration.Seconds()`, whose results lie between `1e-9` and `2^34`. -/
def roundF64 (p q : Nat) : Nat × Int :=
  if p = 0 then (0, 0)
  else (roundHalfEven (scaled p q (normExp p q 200 12)).1 (scaled p q (normExp p q 200 12)).2,
    normExp p q 200 12)

/-- The `float64` value of `Duration.Seconds()` for a duration of `a ≥ 0`
nanoseconds: `float64(sec) + float64(nsec) / 1e9` with `sec = a / 10^9`,
`nsec = a % 10^9`. The quotient `q` is rounded first, then the sum of `sec`
(exact in a `float64`) and `q`. -/
def secondsF64 (a : Nat) : Nat × Int :=
  let sec := a / 1000000000
  let nsec := a % 1000000000
  let q := roundF64 nsec 1000000000
  roundF64 (sec * 2 ^ (-q.2).toNat + q.1) (2 ^ (-q.2).toNat)

/-- The integer part of the `float64` `(m, e)`. -/
def truncF64 (x : Nat × Int) : Nat :=
  if 0 ≤ x.2 then x.1 * 2 ^ x.2.toNat else x.1 / 2 ^ (-x.2).toNat

/-- The integer part, toward zero, of `d.Seconds()` for a `time.Duration` of `d`
nanoseconds. -/
def durationTrunc (d : Int) : Int :=
  if 0 ≤ d then (truncF64 (secondsF64 d.toNat) : Int)
  else - (truncF64 (secondsF64 (-d).toNat) : Int)

/-- The method `Time.Sub` on times in nanoseconds since the epoch: the
difference `t - u`, saturated at the least and the greatest `Duration`. -/
def timeSub (t u : Int) : Int :=
  if t - u < -9223372036854775808 then -9223372036854775808
  else if t - u > 9223372036854775807 then 9223372036854775807
  else t - u

/-- The expression `int(expireTime.Sub(time.Now()).Seconds())`, both times in
nanoseconds since the epoch, `int` being 64 bits wide: the saturating
difference, its `float64` seconds, truncated toward zero. -/
def remainingSeconds (expireTime clock : Int) : Int :=
  durationTrunc (timeSub expireTime clock)

/-- The method `Restrictor.LimitReachedAtTimeWithCount(now, key)` on the store
`S` in state `st`. `nano` is the first reading `time.Now().Nanosecond()`
(the lock token is its decimal form), `clock` the second reading `time.Now()`
in nanoseconds, `now` the decision time in Unix seconds. -/
def LimitReachedAtTimeWithCount {σ : Type} (r : Restrictor) (S : Store σ) (st : σ)
    (nano : Nat) (clock : Int) (now : Int) (key : String) : Outcome σ :=
  let randMark := toString nano
  let l := S.TryLock st key randMark
  if !l.2.1 || l.2.2.isSome then
    ⟨l.1, [.tryLock key randMark], some (true, 0, l.2.2)⟩
  else
    let g := S.GetLimiter l.1 (r.pfx ++ key)
    let lmt := if g.2.2.2 then g.2.1 else NewLimiter
    let expireTime := g.2.2.1
    let pre : List StoreCall := [.tryLock key randMark, .getLimiter (r.pfx ++ key)]
    match LimitReached lmt r.window r.upperLimit r.bucketSpan now with
    | none => ⟨g.1, pre, none⟩
    | some (lmt1, v) =>
      if v.lmtChanged then
        let ttl : Int := if v.expireChanged then (r.window : Int)
          else remainingSeconds expireTime clock
        let st3 := S.SetLimiter g.1 (r.pfx ++ key) lmt1 ttl
        ⟨S.Unlock st3 key randMark,
          pre ++ [.setLimiter (r.pfx ++ key) lmt1 ttl, .unlock key randMark],
          some (v.reached, v.count, none)⟩
      else
        ⟨S.Unlock g.1 key randMark, pre ++ [.unlock key randMark],
          some (v.reached, v.count, none)⟩

/-- The constructor `NewRestrictor(window, limit, numberOfBuckets, store)`;
`windowSec` is the value of `uint32(window.Seconds())`, `pfx` the generated
prefix; `none` is the division-by-zero panic of `windowSec / numberOfBuckets`. -/
def NewRestrictor (windowSec limit numberOfBuckets : Nat) (pfx : String) :
    Option Restrictor :=
  if numberOfBuckets = 0 then none
  else
    let span := windowSec / numberOfBuckets
    let span := if windowSec % numberOfBuckets > 0 then add32 span 1 else span
    some ⟨windowSec, limit, span, pfx⟩

/-- The conversion `uint32(window.Seconds())` of a `time.Duration` of `d`
nanoseconds: the integer part of the `float64` seconds when it fits a `uint32`.
When it does not (a window of `-1 s` or less, or of `2^32 s` or more) Go leaves
the result to the implementation; `other` stands for that result. -/
def durationSec (other : Nat) (d : Int) : Nat :=
  if 0 ≤ durationTrunc d ∧ durationTrunc d < 4294967296 then (durationTrunc d).toNat
  else other

/-- What a `Restrictor.GetCount` call leaves behind: the store state, the store
methods it called in order, and the returned `(count, err)`. -/
structure CountOutcome (σ : Type) where
  store : σ
  calls : List StoreCall
  ret : Nat × Option String

/-- The method `Restrictor.GetCount(key, window)` on the store `S` in state
`st`; `window` is the requested duration in nanoseconds, `nano` the reading
`time.Now().Nanosecond()` for the lock token, `clockNow` the reading
`time.Now()` passed to `Limiter.GetCount`, in Unix seconds, `other` the result
of `uint32(window.Seconds())` when the seconds do not fit a `uint32`. On a failed
`TryLock` the source returns its named result `err`, which is still `nil`
there, not the error `e` of `TryLock`. -/
def Restrictor.GetCount {σ : Type} (r : Restrictor) (S : Store σ) (st : σ)
    (nano : Nat) (clockNow : Int) (other : Nat) (key : String) (window : Int) :
    CountOutcome σ :=
  if durationSec other window > r.window then
    ⟨st, [], (0, some "window value can't be bigger than restrictor window")⟩
  else
    let randMark := toString nano
    let l := S.TryLock st key randMark
    if !l.2.1 || l.2.2.isSome then
      ⟨l.1, [.tryLock key randMark], (0, none)⟩
    else
      let g := S.GetLimiter l.1 (r.pfx ++ key)
      let count :=
        if g.2.2.2 then restrictor.GetCount g.2.1 (durationSec other window) clockNow else 0
      ⟨S.Unlock g.1 key randMark,
        [.tryLock key randMark, .getLimiter (r.pfx ++ key), .unlock key randMark],
        (count, none)⟩

/-! ## Runs of calls and the vocabulary of the statements -/

/-- A sequence of `LimitReached` calls on one limiter, one call per element
of `times`; returns the final limiter and the results in call order. -/
def runCalls (window upperLimit interval : Nat) :
    Limiter → List Int → Option (Limiter × List Verdict)
  | lmt, [] => some (lmt, [])
  | lmt, now :: rest =>
    match LimitReached lmt window upperLimit interval now with
    | none => none
    | some (lmt1, v) =>
      match runCalls window upperLimit interval lmt1 rest with
      | none => none
      | some (lmt2, vs) => some (lmt2, v :: vs)

/-- The pairs `(reached, count)` of the results of a run of calls. -/
def decisions (o : Option (Limiter × List Verdict)) : Option (List (Bool × Nat)) :=
  o.map (fun p => p.2.map (fun v => (v.reached, v.count)))

/-- The times of the calls that were admitted (`reached = false`), in call
order, for the calls at `times` with results `vs`. -/
def admittedTimes (times : List Int) (vs : List Verdict) : List Int :=
  ((times.zip vs).filter (fun p => !p.2.reached)).map Prod.fst

/-- The number of calls of a run that were admitted (`reached = false`). -/
def admittedCount (vs : List Verdict) : Nat := vs.countP (fun v => !v.reached)

/-- The number of elements of `l` in the half-open interval `(lo, hi]`. -/
def countIn (lo hi : Int) (l : List Int) : Nat :=
  l.countP (fun a => decide (lo < a) && decide (a ≤ hi))

/-- The bucket timestamp `normalizedTS = ts - (ts % interval)` of a call at `now`. -/
def bucketOf (interval : Nat) (now : Int) : Nat :=
  unixTs now - unixTs now % interval

/-- The value a Go map read `m[k]` sees: the count stored at `k`, if any. -/
def bucketAt (k : Nat) : List (Nat × Nat) → Option Nat
  | [] => none
  | (t, c) :: rest => if t = k then some c else bucketAt k rest

/-- The buckets with timestamp above `boundary`. -/
def liveBuckets (boundary : Nat) (l : List (Nat × Nat)) : List (Nat × Nat) :=
  l.filter (fun e => decide (boundary < e.1))

/-- The buckets that lie inside the window at the timestamp `tl`: those with
timestamp `t` such that `tl < t + window`. -/
def inWindow (window tl : Nat) (l : List (Nat × Nat)) : List (Nat × Nat) :=
  l.filter (fun e => decide (tl < e.1 + window))

/-- The sum of the counts of a list of buckets, over the natural numbers. -/
def sumCounts (l : List (Nat × Nat)) : Nat := (l.map Prod.snd).sum

/-- The limiter after `k` admitted calls in the bucket `n` and nothing else:
empty for `k = 0`, the single bucket `n ↦ k` otherwise. -/
def burstState (n k : Nat) : Limiter :=
  ⟨0, if k = 0 then [] else [(n, k)]⟩

/-- A store over the state `Nat` whose lock is always held by someone else:
`TryLock` returns not-acquired and counts the attempt; used as a concrete
instance of `Store`. -/
def busyStore : Store Nat where
  TryLock := fun st _ _ => (st + 1, false, none)
  Unlock := fun st _ _ => st
  GetLimiter := fun st _ => (st, NewLimiter, 0, false)
  SetLimiter := fun st _ _ _ => st

/-- An invariant of the limiter states reached by `LimitReached` calls with one
`(window, limit)` at non-decreasing timestamps, `tl` being the timestamp of the
last call: no bucket is in the future, the buckets inside the window hold at
most `limit` events, and a non-zero `FullUntil` was set by a rejecting scan at
some timestamp `t0 ≤ tl` that left exactly the present buckets. -/
structure Inv (window limit : Nat) (s : Limiter) (tl : Nat) : Prop where
  keys_le : ∀ e ∈ s.Buckets, e.1 ≤ tl
  cap : sumCounts (inWindow window tl s.Buckets) ≤ limit
  full : s.FullUntil ≠ 0 → ∃ t0, t0 ≤ tl
    ∧ (∀ e ∈ s.Buckets, sub32 t0 window < e.1 ∧ e.1 ≤ t0)
    ∧ limit ≤ (pruneScan (sub32 t0 window) s.Buckets 0 MaxUint32).1
    ∧ s.FullUntil = add32 (pruneScan (sub32 t0 window) s.Buckets 0 MaxUint32).2.1 window

/-- An invariant tying a limiter to the history of a run of calls with one
`(window, limit, interval)`: `admitted` are the times of the admitted calls so
far and `tl` the timestamp of the last call. No admitted call is later than
`tl`; above every boundary from `tl - window` on the buckets count exactly the
admitted calls whose bucket timestamp is above it; the buckets inside the
window hold at most `limit` events; and every interval of length
`window - interval + 1` holds at most `limit` admitted calls. -/
structure Hist (window limit interval : Nat) (s : Limiter) (admitted : List Int) (tl : Nat) :
    Prop where
  times_le : ∀ a ∈ admitted, 0 ≤ a ∧ a ≤ (tl : Int)
  counted : ∀ b, tl - window ≤ b →
    admitted.countP (fun a => decide (b < bucketOf interval a))
      = sumCounts (liveBuckets b s.Buckets)
  cap : sumCounts (liveBuckets (tl - window) s.Buckets) ≤ limit
  spread : ∀ T : Int,
    countIn (T - ((window : Int) - (interval : Int) + 1)) T admitted ≤ limit

/-- The state of the in-memory store `memStore`: the store's clock in
nanoseconds since the epoch and the saved limiters with their expiry. -/
structure MemState where
  clock : Int
  entries : List (String × Limiter × Int)
deriving DecidableEq, Repr

/-- The saved entry of a key, if any. -/
def memFind (k : String) : List (String × Limiter × Int) → Option (Limiter × Int)
  | [] => none
  | (k1, l, e) :: rest => if k1 = k then some (l, e) else memFind k rest

/-- An in-memory store, used as a concrete instance of `Store`: the lock is
always free, `SetLimiter` saves the limiter with expiry `clock + ttl` seconds,
and `GetLimiter` finds an entry until its expiry. -/
def memStore : Store MemState where
  TryLock := fun st _ _ => (st, true, none)
  Unlock := fun st _ _ => st
  GetLimiter := fun st k =>
    match memFind k st.entries with
    | some (l, e) => if st.clock < e then (st, l, e, true) else (st, NewLimiter, 0, false)
    | none => (st, NewLimiter, 0, false)
  SetLimiter := fun st k l ttl =>
    ⟨st.clock, (k, l, st.clock + ttl * 1000000000) :: st.entries.filter (fun x => x.1 ≠ k)⟩

/-- A store over the state `Nat` whose `SetLimiter` fails: nothing is saved and
the state counts the failed saves; the lock is always free and no limiter is
ever found. -/
def lossyStore : Store Nat where
  TryLock := fun st _ _ => (st, true, none)
  Unlock := fun st _ _ => st
  GetLimiter := fun st _ => (st, NewLimiter, 0, false)
  SetLimiter := fun st _ _ _ => st + 1

/-- A store over the state `Nat` whose `TryLock` returns the error
`"lock error"`. -/
def errStore : Store Nat where
  TryLock := fun st _ _ => (st, false, some "lock error")
  Unlock := fun st _ _ => st
  GetLimiter := fun st _ => (st, NewLimiter, 0, false)
  SetLimiter := fun st _ _ _ => st

/-- The `ttl` arguments of the `SetLimiter` calls of a trace, in order. -/
def savedTtls : List StoreCall → List Int
  | [] => []
  | .setLimiter _ _ ttl :: rest => ttl :: savedTtls rest
  | _ :: rest => savedTtls rest

/-- The number of `Unlock` calls of a trace. -/
def unlockCount : List StoreCall → Nat
  | [] => 0
  | .unlock _ _ :: rest => unlockCount rest + 1
  | _ :: rest => unlockCount rest

/-- The result of the `TryLock` call of a restrictor method: store state,
`ok`, `err`. -/
def lockResult {σ : Type} (S : Store σ) (st : σ) (nano : Nat) (key : String) :
    σ × Bool × Option String :=
  S.TryLock st key (toString nano)

/-- The result of the `GetLimiter` call that follows an acquired lock: store
state, limiter, expiry, `found`. -/
def loadResult {σ : Type} (r : Restrictor) (S : Store σ) (st : σ) (nano : Nat)
    (key : String) : σ × Limiter × Int × Bool :=
  S.GetLimiter (lockResult S st nano key).1 (r.pfx ++ key)

/-- The limiter `LimitReachedAtTimeWithCount` evaluates: the loaded one if
found, a new one otherwise. -/
def startLimiter {σ : Type} (r : Restrictor) (S : Store σ) (st : σ) (nano : Nat)
    (key : String) : Limiter :=
  if (loadResult r S st nano key).2.2.2 then (loadResult r S st nano key).2.1 else NewLimiter

/-- A second invariant of the limiter states reached by `LimitReached` calls
with one `(window, span)` at non-decreasing timestamps, `tl` being the
timestamp of the last call: the bucket timestamps are pairwise distinct (the
list is a map), each is a multiple of `span`, all lie in one window
`(a - window, a]` with `a ≤ tl`, and every bucket counts at least one event. -/
structure Grid (window span : Nat) (s : Limiter) (tl : Nat) : Prop where
  nodup : (s.Buckets.map Prod.fst).Nodup
  aligned : ∀ e ∈ s.Buckets, e.1 % span = 0
  within : ∃ a, a ≤ tl ∧ ∀ e ∈ s.Buckets, e.1 ≤ a ∧ a < e.1 + window
  pos : ∀ e ∈ s.Buckets, 1 ≤ e.2

/-- A third invariant of the limiter states reached by `LimitReached` calls
with one `limit`: every bucket counts at least one event, and while `FullUntil`
is set the buckets hold at most `limit` events in all. -/
structure Counts (limit : Nat) (s : Limiter) : Prop where
  pos : ∀ e ∈ s.Buckets, 1 ≤ e.2
  full_cap : s.FullUntil ≠ 0 → sumCounts s.Buckets ≤ limit

/-- An invariant of the limiter states reached by `LimitReached` calls with one
`limit`, at any times at all: the buckets hold at most `limit` events in all,
and every bucket counts at least one event. -/
structure Tally (limit : Nat) (s : Limiter) : Prop where
  total_le : sumCounts s.Buckets ≤ limit
  pos : ∀ e ∈ s.Buckets, 1 ≤ e.2

/-! ## Basic facts about the bucket loops -/

theorem unixTs_of_range {now : Int} (h0 : 0 ≤ now) (h1 : now < 4294967296) :
    (unixTs now : Int) = now := by
  unfold unixTs
  rw [Int.emod_eq_of_lt h0 h1]
  exact Int.toNat_of_nonneg h0

theorem sub32_of_le {a b : Nat} (hb : b ≤ a) (ha : a < u32) : sub32 a b = a - b := by
  unfold sub32 u32 at *
  have : b % 4294967296 = b := Nat.mod_eq_of_lt (by omega)
  rw [this]
  omega

theorem sub32_of_lt {a b : Nat} (hab : a < b) (hb : b < u32) : sub32 a b = a + u32 - b := by
  unfold sub32 u32 at *
  have : b % 4294967296 = b := Nat.mod_eq_of_lt (by omega)
  rw [this]
  omega

theorem sub32_lt (a b : Nat) : sub32 a b < u32 := by
  unfold sub32
  exact Nat.mod_lt _ (by decide)

theorem pruneScan_kept (b : Nat) (l : List (Nat × Nat)) (tot old : Nat) :
    (pruneScan b l tot old).2.2 = liveBuckets b l := by
  induction l generalizing tot old with
  | nil => rfl
  | cons e rest ih =>
    obtain ⟨t, c⟩ := e
    by_cases h : t ≤ b
    · have hn : ¬ b < t := by omega
      simp [pruneScan, liveBuckets, h, hn]
      simpa [liveBuckets] using ih tot old
    · have hn : b < t := by omega
      simp [pruneScan, liveBuckets, h, hn]
      simpa [liveBuckets] using ih _ _

theorem pruneScan_total (b : Nat) (l : List (Nat × Nat)) (tot old : Nat) (ht : tot < u32) :
    (pruneScan b l tot old).1 = (tot + sumCounts (liveBuckets b l)) % u32 := by
  induction l generalizing tot old with
  | nil => simp [pruneScan, liveBuckets, sumCounts, Nat.mod_eq_of_lt ht]
  | cons e rest ih =>
    obtain ⟨t, c⟩ := e
    by_cases h : t ≤ b
    · have hn : ¬ b < t := by omega
      simp only [pruneScan, h, if_true]
      rw [ih tot old ht]
      simp [liveBuckets, hn]
    · have hn : b < t := by omega
      simp only [pruneScan, h, if_false]
      rw [ih _ _ (show add32 tot c < u32 from Nat.mod_lt _ (by decide))]
      simp only [liveBuckets, List.filter_cons, hn, decide_True, if_true, sumCounts,
        List.map_cons, List.sum_cons, add32]
      rw [Nat.mod_add_mod, Nat.add_assoc]

/-! ## Sequences of calls -/

theorem runCalls_cons_some {window limit interval : Nat} {s s1 : Limiter} {v : Verdict}
    {t : Int} (rest : List Int) (h : LimitReached s window limit interval t = some (s1, v)) :
    runCalls window limit interval s (t :: rest)
      = (runCalls window limit interval s1 rest).map (fun p => (p.1, v :: p.2)) := by
  rw [runCalls, h]
  simp only []
  cases runCalls window limit interval s1 rest <;> rfl

theorem decisions_cons_some {window limit interval : Nat} {s s1 : Limiter} {v : Verdict}
    {t : Int} (rest : List Int) (h : LimitReached s window limit interval t = some (s1, v)) :
    decisions (runCalls window limit interval s (t :: rest))
      = (decisions (runCalls window limit interval s1 rest)).map
          (fun ds => (v.reached, v.count) :: ds) := by
  rw [runCalls_cons_some rest h]
  cases runCalls window limit interval s1 rest with
  | none => rfl
  | some p => rfl

/-! ## A burst of calls at one instant -/

theorem burst_step_admitted (window limit interval ts k : Nat) (hl : limit < u32)
    (hi : 0 < interval) (hw : window ≤ ts) (hts : ts < u32) (hm : ts % interval < window)
    (hk : k < limit) :
    scanBranch (burstState (ts - ts % interval) k) window limit interval ts
      = some (burstState (ts - ts % interval) (k + 1), ⟨false, k + 1, true, true⟩) := by
  have hb : sub32 ts window = ts - window := sub32_of_le hw hts
  have hgt : ¬ (ts - ts % interval ≤ ts - window) := by
    have := Nat.mod_le ts interval
    omega
  have hi0 : interval ≠ 0 := by omega
  have hu : u32 = 4294967296 := rfl
  by_cases hk0 : k = 0
  · subst hk0
    simp [scanBranch, burstState, pruneScan, bucketIncr, hi0, add32, hk, hu]
  · have hkm : k % 4294967296 = k := Nat.mod_eq_of_lt (by omega)
    have hkm1 : (k + 1) % 4294967296 = k + 1 := Nat.mod_eq_of_lt (by omega)
    simp [scanBranch, burstState, pruneScan, bucketIncr, hi0, add32, hk, hk0, hb, hgt, hu,
      hkm, hkm1]

theorem burst_step_rejected (window limit interval ts : Nat) (hl : limit < u32) (hl0 : 0 < limit)
    (hw : window ≤ ts) (hts : ts < u32) (hm : ts % interval < window) :
    scanBranch (burstState (ts - ts % interval) limit) window limit interval ts
      = some (⟨add32 (ts - ts % interval) window, [(ts - ts % interval, limit)]⟩,
          ⟨true, limit, true, false⟩) := by
  have hb : sub32 ts window = ts - window := sub32_of_le hw hts
  have hgt : ¬ (ts - ts % interval ≤ ts - window) := by
    have := Nat.mod_le ts interval
    omega
  have hu : u32 = 4294967296 := rfl
  have hk0 : limit ≠ 0 := by omega
  have hkm : limit % 4294967296 = limit := Nat.mod_eq_of_lt (by omega)
  have hmx : (if MaxUint32 > ts - ts % interval then ts - ts % interval else MaxUint32)
      = ts - ts % interval := by
    unfold MaxUint32
    split <;> omega
  simp only [scanBranch, burstState, pruneScan, hk0, hb, hgt, if_false, hmx]
  simp [add32, hu, hkm]

theorem burst_run (window limit interval : Nat) (now : Int) (hl : limit < u32)
    (hl0 : 0 < limit) (hi : 0 < interval) (hw : window ≤ unixTs now)
    (hm : unixTs now % interval < window) (m k : Nat) (hkm : k + m = limit) :
    decisions (runCalls window limit interval
        (burstState (unixTs now - unixTs now % interval) k) (List.replicate (m + 1) now))
      = some ((List.range' (k + 1) m).map (fun j => (false, j)) ++ [(true, limit)]) := by
  have hts : unixTs now < u32 := by
    unfold unixTs u32
    omega
  have hl1 : limit ≠ 0 := by omega
  induction m generalizing k with
  | zero =>
    have hk : k = limit := by omega
    subst hk
    have hf := burst_step_rejected window k interval (unixTs now) hl hl0 hw hts hm
    have hstep : LimitReached (burstState (unixTs now - unixTs now % interval) k) window k
        interval now = some (⟨add32 (unixTs now - unixTs now % interval) window,
          [(unixTs now - unixTs now % interval, k)]⟩, ⟨true, k, true, false⟩) := by
      simp only [LimitReached, hl1, if_false]
      rw [if_neg (by simp [burstState]), hf]
    rw [show List.replicate (0 + 1) now = [now] from rfl, decisions_cons_some [] hstep]
    simp [runCalls, decisions]
  | succ m ih =>
    have hk : k < limit := by omega
    have hs := burst_step_admitted window limit interval (unixTs now) k hl hi hw hts hm hk
    have hstep : LimitReached (burstState (unixTs now - unixTs now % interval) k) window limit
        interval now = some (burstState (unixTs now - unixTs now % interval) (k + 1),
          ⟨false, k + 1, true, true⟩) := by
      simp only [LimitReached, hl1, if_false]
      rw [if_neg (by simp [burstState]), hs]
    rw [List.replicate_succ, decisions_cons_some _ hstep, ih (k + 1) (by omega)]
    simp [List.range'_succ]

/-- C1 (as amended): for every `limit > 0`, `window`, `bucketSpan > 0` and instant
`now` whose timestamp `ts = uint32(now.Unix())` satisfies `window ≤ ts` (so
`ts - window` does not wrap) and `ts mod bucketSpan < window` (the bucket of
`now` lies inside the window), `limit + 1` consecutive calls of `LimitReached`
at `now` on an empty limiter all return, the `k`-th (`1 ≤ k ≤ limit`) with
`reached=false, count=k` and the last with `reached=true, count=limit`. -/
theorem C1_burst_at_fixed_instant (window limit interval : Nat) (now : Int)
    (hl : limit < u32) (hl0 : 0 < limit) (hi : 0 < interval) (hw : window ≤ unixTs now)
    (hm : unixTs now % interval < window) :
    decisions (runCalls window limit interval NewLimiter (List.replicate (limit + 1) now))
      = some ((List.range limit).map (fun k => (false, k + 1)) ++ [(true, limit)]) := by
  have h := burst_run window limit interval now hl hl0 hi hw hm limit 0 (by omega)
  have h0 : burstState (unixTs now - unixTs now % interval) 0 = NewLimiter := rfl
  rw [h0] at h
  rw [h]
  have hr : List.range' (0 + 1) limit = (List.range limit).map (fun k => k + 1) := by
    rw [List.range'_eq_map_range]
    simp [Nat.add_comm]
  rw [hr, List.map_map]
  rfl

/-- Witness of C1 (as amended): `window = 60`, `limit = 3`, `bucketSpan = 1`, `now = 1000`. -/
theorem C1_burst_at_fixed_instant_witness :
    decisions (runCalls 60 3 1 NewLimiter (List.replicate (3 + 1) 1000))
      = some ((List.range 3).map (fun k => (false, k + 1)) ++ [(true, 3)]) :=
  C1_burst_at_fixed_instant 60 3 1 1000 (by decide) (by decide) (by decide) (by decide)
    (by decide)

/-- C1 fails as stated: with `window = 1`, `limit = 2`, `bucketSpan = 10` at
`now = 1000000005` the bucket of `now` (timestamp 1000000000) is already
outside the window, so every call of the burst is admitted with count 1: the
second call does not return count 2 and the third is not rejected. -/
theorem C1_burst_counterexample :
    decisions (runCalls 1 2 10 NewLimiter (List.replicate (2 + 1) 1000000005))
      = some [(false, 1), (false, 1), (false, 1)]
    ∧ decisions (runCalls 1 2 10 NewLimiter (List.replicate (2 + 1) 1000000005))
      ≠ some ((List.range 2).map (fun k => (false, k + 1)) ++ [(true, 2)]) := by
  decide

/-! ## The scan branch against its description -/

theorem bucketAt_liveBuckets (b t : Nat) (l : List (Nat × Nat)) :
    bucketAt t (liveBuckets b l) = if t ≤ b then none else bucketAt t l := by
  induction l with
  | nil => simp [liveBuckets, bucketAt]
  | cons e rest ih =>
    obtain ⟨k, c⟩ := e
    unfold liveBuckets at ih ⊢
    by_cases hk : b < k
    · simp only [List.filter_cons, hk, decide_True, if_true, bucketAt]
      by_cases hkt : k = t
      · subst hkt
        have : ¬ k ≤ b := by omega
        simp [this]
      · simp only [hkt, if_false]
        exact ih
    · simp only [List.filter_cons, hk, decide_False, bucketAt]
      by_cases hkt : k = t
      · subst hkt
        have : k ≤ b := by omega
        simp only [this, if_true] at ih ⊢
        simpa using ih
      · simp only [hkt, if_false]
        simpa using ih

theorem bucketAt_bucketIncr (k t : Nat) (l : List (Nat × Nat)) :
    bucketAt t (bucketIncr k l)
      = if t = k then some (add32 ((bucketAt k l).getD 0) 1) else bucketAt t l := by
  induction l with
  | nil =>
    by_cases h : t = k
    · subst h
      simp [bucketIncr, bucketAt, add32, u32]
    · have h' : ¬ k = t := fun e => h e.symm
      simp [bucketIncr, bucketAt, h, h']
  | cons e rest ih =>
    obtain ⟨a, c⟩ := e
    by_cases hak : a = k
    · subst hak
      by_cases hta : t = a
      · subst hta
        simp [bucketIncr, bucketAt]
      · have h' : ¬ a = t := fun e => hta e.symm
        simp [bucketIncr, bucketAt, hta, h']
    · by_cases hta : t = k
      · subst hta
        simp [bucketIncr, bucketAt, hak, ih]
      · by_cases hat : a = t
        · subst hat
          simp [bucketIncr, bucketAt, hak]
        · simp [bucketIncr, bucketAt, hak, hat, hta, ih]

theorem pruneScan_oldest (b : Nat) (l : List (Nat × Nat)) (tot old : Nat) :
    (pruneScan b l tot old).2.1 ≤ old
    ∧ (∀ e ∈ liveBuckets b l, (pruneScan b l tot old).2.1 ≤ e.1)
    ∧ ((pruneScan b l tot old).2.1 = old
        ∨ ∃ e ∈ liveBuckets b l, e.1 = (pruneScan b l tot old).2.1) := by
  induction l generalizing tot old with
  | nil => simp [pruneScan, liveBuckets]
  | cons e rest ih =>
    obtain ⟨t, c⟩ := e
    by_cases h : t ≤ b
    · have hn : ¬ b < t := by omega
      have hl : liveBuckets b ((t, c) :: rest) = liveBuckets b rest := by
        simp [liveBuckets, hn]
      simp only [pruneScan, h, if_true, hl]
      exact ih tot old
    · have hn : b < t := by omega
      have hl : liveBuckets b ((t, c) :: rest) = (t, c) :: liveBuckets b rest := by
        simp [liveBuckets, hn]
      simp only [pruneScan, h, if_false, hl]
      obtain ⟨h1, h2, h3⟩ := ih (add32 tot c) (if old > t then t else old)
      have hmin : (if old > t then t else old) ≤ old ∧ (if old > t then t else old) ≤ t := by
        split <;> omega
      refine ⟨by omega, ?_, ?_⟩
      · intro e he
        rcases List.mem_cons.1 he with rfl | he
        · show _ ≤ t
          omega
        · exact h2 e he
      · rcases h3 with h3 | ⟨e, he, hee⟩
        · by_cases hot : old > t
          · right
            refine ⟨(t, c), List.mem_cons_self _ _, ?_⟩
            rw [h3]
            simp [hot]
          · left
            rw [h3]
            simp [hot]
        · right
          exact ⟨e, List.mem_cons_of_mem _ he, hee⟩

theorem LimitReached_eq_scanBranch {lmt : Limiter} {window limit interval : Nat} {now : Int}
    (hl : limit ≠ 0) (hfu : ¬ unixTs now < lmt.FullUntil) :
    LimitReached lmt window limit interval now
      = scanBranch lmt window limit interval (unixTs now) := by
  simp only [LimitReached, hl, hfu, if_false]

theorem scanBranch_admitted {lmt : Limiter} {window limit interval ts : Nat} (hi : interval ≠ 0)
    (hlt : sumCounts (liveBuckets (sub32 ts window) lmt.Buckets) % u32 < limit) :
    scanBranch lmt window limit interval ts
      = some (⟨0, bucketIncr (ts - ts % interval) (liveBuckets (sub32 ts window) lmt.Buckets)⟩,
          ⟨false, add32 (sumCounts (liveBuckets (sub32 ts window) lmt.Buckets) % u32) 1,
            true, true⟩) := by
  have htot := pruneScan_total (sub32 ts window) lmt.Buckets 0 MaxUint32 (by decide)
  have hkept := pruneScan_kept (sub32 ts window) lmt.Buckets 0 MaxUint32
  rw [Nat.zero_add] at htot
  simp only [scanBranch, htot, hkept, hlt, if_true, hi, if_false]

theorem scanBranch_rejected {lmt : Limiter} {window limit interval ts : Nat}
    (hge : limit ≤ sumCounts (liveBuckets (sub32 ts window) lmt.Buckets) % u32) :
    scanBranch lmt window limit interval ts
      = some (⟨add32 (pruneScan (sub32 ts window) lmt.Buckets 0 MaxUint32).2.1 window,
            liveBuckets (sub32 ts window) lmt.Buckets⟩,
          ⟨true, limit, true, false⟩) := by
  have htot := pruneScan_total (sub32 ts window) lmt.Buckets 0 MaxUint32 (by decide)
  have hkept := pruneScan_kept (sub32 ts window) lmt.Buckets 0 MaxUint32
  rw [Nat.zero_add] at htot
  have hlt : ¬ sumCounts (liveBuckets (sub32 ts window) lmt.Buckets) % u32 < limit := by omega
  simp only [scanBranch, htot, hkept, hlt, if_false]

/-- The scan path against its description when all the arithmetic of the
description is that of `uint32` (it is the arithmetic of the integers only
where nothing wraps). For `limit > 0`, `bucketSpan > 0` and `now ≥ FullUntil`, with
`boundary = now - window`, `S` the buckets with timestamp `> boundary` and
`total` the sum of the counts in `S`: the call returns; `S` holds no bucket
with timestamp `≤ boundary` and every other bucket with its count unchanged;
if `total < limit` the limiter becomes `S` with the bucket at
`now - (now mod bucketSpan)` incremented by 1 (created at 1 if absent),
`FullUntil = 0`, and the result is `(false, total+1, true, true)`; otherwise the
buckets become `S`, `FullUntil = oldest + window` for `oldest` the minimum
timestamp in `S`, and the result is `(true, limit, true, false)`. -/
theorem scan_path_uint32_reference (lmt : Limiter) (window limit interval : Nat)
    (now : Int) (hl0 : 0 < limit) (hl : limit < u32) (hi : 0 < interval)
    (hkeys : ∀ e ∈ lmt.Buckets, e.1 < u32) (hfu : lmt.FullUntil ≤ unixTs now) :
    ∃ lmt1 v, LimitReached lmt window limit interval now = some (lmt1, v)
      ∧ (∀ t, bucketAt t (liveBuckets (sub32 (unixTs now) window) lmt.Buckets)
            = if t ≤ sub32 (unixTs now) window then none else bucketAt t lmt.Buckets)
      ∧ (sumCounts (liveBuckets (sub32 (unixTs now) window) lmt.Buckets) % u32 < limit →
          lmt1.FullUntil = 0
          ∧ v = ⟨false,
              sumCounts (liveBuckets (sub32 (unixTs now) window) lmt.Buckets) % u32 + 1,
              true, true⟩
          ∧ ∀ t, bucketAt t lmt1.Buckets
              = if t = unixTs now - unixTs now % interval then
                  some (((bucketAt t (liveBuckets (sub32 (unixTs now) window)
                    lmt.Buckets)).getD 0 + 1) % u32)
                else bucketAt t (liveBuckets (sub32 (unixTs now) window) lmt.Buckets))
      ∧ (limit ≤ sumCounts (liveBuckets (sub32 (unixTs now) window) lmt.Buckets) % u32 →
          lmt1.Buckets = liveBuckets (sub32 (unixTs now) window) lmt.Buckets
          ∧ v = ⟨true, limit, true, false⟩
          ∧ ∃ oldest,
              (∃ e ∈ liveBuckets (sub32 (unixTs now) window) lmt.Buckets, e.1 = oldest)
              ∧ (∀ e ∈ liveBuckets (sub32 (unixTs now) window) lmt.Buckets, oldest ≤ e.1)
              ∧ lmt1.FullUntil = (oldest + window) % u32) := by
  have hl1 : limit ≠ 0 := by omega
  have hi1 : interval ≠ 0 := by omega
  have hfu1 : ¬ unixTs now < lmt.FullUntil := by omega
  rw [LimitReached_eq_scanBranch hl1 hfu1]
  generalize unixTs now = ts at *
  obtain ⟨_, ho2, ho3⟩ := pruneScan_oldest (sub32 ts window) lmt.Buckets 0 MaxUint32
  by_cases hlt : sumCounts (liveBuckets (sub32 ts window) lmt.Buckets) % u32 < limit
  · refine ⟨_, _, scanBranch_admitted hi1 hlt, fun t => bucketAt_liveBuckets _ t _, ?_, ?_⟩
    · intro _
      refine ⟨rfl, ?_, ?_⟩
      · have : (sumCounts (liveBuckets (sub32 ts window) lmt.Buckets) % u32 + 1) % u32
            = sumCounts (liveBuckets (sub32 ts window) lmt.Buckets) % u32 + 1 :=
          Nat.mod_eq_of_lt (by omega)
        simp only [add32, this]
      · intro t
        simp only [bucketAt_bucketIncr, add32]
        by_cases ht : t = ts - ts % interval
        · subst ht
          simp
        · simp [ht]
    · intro hge
      omega
  · have hge : limit ≤ sumCounts (liveBuckets (sub32 ts window) lmt.Buckets) % u32 := by omega
    refine ⟨_, _, scanBranch_rejected hge, fun t => bucketAt_liveBuckets _ t _, ?_, ?_⟩
    · intro h
      exact absurd h hlt
    · intro _
      refine ⟨rfl, rfl, (pruneScan (sub32 ts window) lmt.Buckets 0 MaxUint32).2.1, ?_, ho2, ?_⟩
      · rcases ho3 with ho3 | ho3
        · have hne : liveBuckets (sub32 ts window) lmt.Buckets ≠ [] := by
            intro hnil
            rw [hnil] at hge
            simp [sumCounts] at hge
            omega
          obtain ⟨e, he⟩ := List.exists_mem_of_ne_nil _ hne
          refine ⟨e, he, ?_⟩
          have h1 := ho2 e he
          have h2 : e.1 < u32 := hkeys e (List.mem_of_mem_filter he)
          rw [ho3] at h1 ⊢
          unfold MaxUint32 at *
          unfold u32 at h2
          omega
        · exact ho3
      · simp [add32]

/-- An instance of `scan_path_uint32_reference`: two buckets, one of them
expired, a third call at `now = 1000`. -/
theorem scan_path_uint32_reference_example :
    ∃ lmt1 v, LimitReached ⟨0, [(900, 2), (995, 1)]⟩ 60 3 5 1000 = some (lmt1, v)
      ∧ (∀ t, bucketAt t (liveBuckets (sub32 (unixTs 1000) 60) [(900, 2), (995, 1)])
            = if t ≤ sub32 (unixTs 1000) 60 then none else bucketAt t [(900, 2), (995, 1)])
      ∧ (sumCounts (liveBuckets (sub32 (unixTs 1000) 60) [(900, 2), (995, 1)]) % u32 < 3 →
          lmt1.FullUntil = 0
          ∧ v = ⟨false,
              sumCounts (liveBuckets (sub32 (unixTs 1000) 60) [(900, 2), (995, 1)]) % u32 + 1,
              true, true⟩
          ∧ ∀ t, bucketAt t lmt1.Buckets
              = if t = unixTs 1000 - unixTs 1000 % 5 then
                  some (((bucketAt t (liveBuckets (sub32 (unixTs 1000) 60)
                    [(900, 2), (995, 1)])).getD 0 + 1) % u32)
                else bucketAt t (liveBuckets (sub32 (unixTs 1000) 60) [(900, 2), (995, 1)]))
      ∧ (3 ≤ sumCounts (liveBuckets (sub32 (unixTs 1000) 60) [(900, 2), (995, 1)]) % u32 →
          lmt1.Buckets = liveBuckets (sub32 (unixTs 1000) 60) [(900, 2), (995, 1)]
          ∧ v = ⟨true, 3, true, false⟩
          ∧ ∃ oldest,
              (∃ e ∈ liveBuckets (sub32 (unixTs 1000) 60) [(900, 2), (995, 1)], e.1 = oldest)
              ∧ (∀ e ∈ liveBuckets (sub32 (unixTs 1000) 60) [(900, 2), (995, 1)], oldest ≤ e.1)
              ∧ lmt1.FullUntil = (oldest + 60) % u32) :=
  scan_path_uint32_reference ⟨0, [(900, 2), (995, 1)]⟩ 60 3 5 1000 (by decide) (by decide)
    (by decide) (by decide) (by decide)

/-! ## The degenerate limit -/

/-- C4: with `upperLimit = 0`, `LimitReached` returns
`(reached=true, count=0, lmtChanged=false, expireChanged=false)` and the limiter
after the call (`FullUntil` and `Buckets`) is the limiter before it, for every
limiter state, window, bucket span (0 included) and time. -/
theorem C4_zero_limit_always_blocked (lmt : Limiter) (window interval : Nat) (now : Int) :
    LimitReached lmt window 0 interval now = some (lmt, ⟨true, 0, false, false⟩) := by
  simp [LimitReached]

/-! ## GetCount -/

theorem countLoop_eq (b : Nat) (l : List (Nat × Nat)) (tot : Nat) (ht : tot < u32) :
    countLoop b l tot = (tot + sumCounts (liveBuckets b l)) % u32 := by
  induction l generalizing tot with
  | nil => simp [countLoop, liveBuckets, sumCounts, Nat.mod_eq_of_lt ht]
  | cons e rest ih =>
    obtain ⟨t, c⟩ := e
    by_cases h : t > b
    · have hb : b < t := h
      simp only [countLoop, h, if_true]
      rw [ih _ (show add32 tot c < u32 from Nat.mod_lt _ (by decide))]
      simp only [liveBuckets, List.filter_cons, hb, decide_True, if_true, sumCounts,
        List.map_cons, List.sum_cons, add32]
      rw [Nat.mod_add_mod, Nat.add_assoc]
    · have hb : ¬ b < t := h
      simp only [countLoop, h, if_false]
      rw [ih tot ht]
      simp [liveBuckets, hb]

theorem GetCount_eq (lmt : Limiter) (window : Nat) (now : Int) :
    GetCount lmt window now
      = sumCounts (liveBuckets (sub32 (unixTs now) window) lmt.Buckets) % u32 := by
  unfold GetCount
  rw [countLoop_eq _ _ _ (by decide), Nat.zero_add]

/-- C6 (the code at the failing input): on an empty limiter with `window = 10`,
`bucketSpan = 2`, one call at `t = 0` is admitted and leaves the single bucket
`0 ↦ 1`; on that limiter `GetCount(10, now = 9)` is 0, not 1, because
`boundary = 9 - 10` wraps to `4294967295` and no timestamp is above it. At
`now = 11` the count is 0 as well. -/
theorem C6_getCount_wraps_below_window :
    runCalls 10 5 2 NewLimiter [0]
      = some (⟨0, [(0, 1)]⟩, [⟨false, 1, true, true⟩])
    ∧ sub32 (unixTs 9) 10 = 4294967295
    ∧ GetCount ⟨0, [(0, 1)]⟩ 10 9 = 0
    ∧ GetCount ⟨0, [(0, 1)]⟩ 10 11 = 0 := by
  decide

/-! ## The end-to-end example -/

/-- C9 fails as stated: with `window = 60`, `limit = 3`, `bucketSpan = 1` the
calls at `t = 0, 1, 2, 3, 61` return `(false,1), (false,1), (false,1),
(false,1), (false,2)`, not `(false,1), (false,2), (false,3), (true,3),
(false,1)`. -/
theorem C9_end_to_end_counterexample :
    decisions (runCalls 60 3 1 NewLimiter [0, 1, 2, 3, 61])
      = some [(false, 1), (false, 1), (false, 1), (false, 1), (false, 2)]
    ∧ decisions (runCalls 60 3 1 NewLimiter [0, 1, 2, 3, 61])
      ≠ some [(false, 1), (false, 2), (false, 3), (true, 3), (false, 1)] := by
  decide

theorem unixTs_add_nat {T : Int} (h0 : 0 ≤ T) (k : Nat) (h1 : T + k < 4294967296) :
    unixTs (T + k) = unixTs T + k := by
  unfold unixTs
  omega

/-- C9 (as amended): with `window = 60`, `limit = 3`, `bucketSpan = 1`, on an
empty limiter and for every base time `T` with `60 ≤ T` and `T + 61 < 2^32`
(no `uint32` wrap), the calls at `T, T+1, T+2` return `reached=false` with
counts 1, 2, 3; the call at `T+3` returns `reached=true, count=3`; and the call
at `T+61` returns `reached=false, count=2`: only the buckets at `T` and `T+1`
have expired, the bucket at `T+2` is still inside the window. -/
theorem C9_end_to_end_shifted (T : Int) (h0 : 60 ≤ T) (h1 : T + 61 < 4294967296) :
    decisions (runCalls 60 3 1 NewLimiter [T, T + 1, T + 2, T + 3, T + 61])
      = some [(false, 1), (false, 2), (false, 3), (true, 3), (false, 2)] := by
  obtain ⟨n, e0⟩ : ∃ n, unixTs T = n := ⟨_, rfl⟩
  have e1 : unixTs (T + 1) = n + 1 := e0 ▸ unixTs_add_nat (by omega) 1 (by omega)
  have e2 : unixTs (T + 2) = n + 2 := e0 ▸ unixTs_add_nat (by omega) 2 (by omega)
  have e3 : unixTs (T + 3) = n + 3 := e0 ▸ unixTs_add_nat (by omega) 3 (by omega)
  have e61 : unixTs (T + 61) = n + 61 := e0 ▸ unixTs_add_nat (by omega) 61 (by omega)
  have hn : 60 ≤ n ∧ n + 61 < 4294967296 := by
    rw [← e0]
    unfold unixTs
    omega
  obtain ⟨hn0, hn1⟩ := hn
  have hu : u32 = 4294967296 := rfl
  have hmx : MaxUint32 = 4294967295 := rfl
  have b0 : sub32 n 60 = n - 60 := sub32_of_le hn0 (by omega)
  have b1 : sub32 (n + 1) 60 = n - 59 := by
    rw [sub32_of_le (by omega) (by omega)]
    omega
  have b2 : sub32 (n + 2) 60 = n - 58 := by
    rw [sub32_of_le (by omega) (by omega)]
    omega
  have b3 : sub32 (n + 3) 60 = n - 57 := by
    rw [sub32_of_le (by omega) (by omega)]
    omega
  have b61 : sub32 (n + 61) 60 = n + 1 := by
    rw [sub32_of_le (by omega) (by omega)]
    omega
  have c1 : ¬ n ≤ n - 59 := by omega
  have c2 : ¬ n ≤ n - 58 := by omega
  have c2' : ¬ n + 1 ≤ n - 58 := by omega
  have c3 : ¬ n ≤ n - 57 := by omega
  have c3' : ¬ n + 1 ≤ n - 57 := by omega
  have c3'' : ¬ n + 2 ≤ n - 57 := by omega
  have m1 : n < 4294967295 := by omega
  have s1 : LimitReached NewLimiter 60 3 1 T = some (⟨0, [(n, 1)]⟩, ⟨false, 1, true, true⟩) := by
    rw [LimitReached_eq_scanBranch (by decide) (by simp [NewLimiter]), e0]
    simp [NewLimiter, scanBranch, pruneScan, bucketIncr, add32, Nat.mod_one, hu]
  have s2 : LimitReached ⟨0, [(n, 1)]⟩ 60 3 1 (T + 1)
      = some (⟨0, [(n, 1), (n + 1, 1)]⟩, ⟨false, 2, true, true⟩) := by
    rw [LimitReached_eq_scanBranch (by decide) (by simp), e1]
    simp [scanBranch, pruneScan, bucketIncr, add32, Nat.mod_one, hu, b1, c1]
  have s3 : LimitReached ⟨0, [(n, 1), (n + 1, 1)]⟩ 60 3 1 (T + 2)
      = some (⟨0, [(n, 1), (n + 1, 1), (n + 2, 1)]⟩, ⟨false, 3, true, true⟩) := by
    rw [LimitReached_eq_scanBranch (by decide) (by simp), e2]
    simp [scanBranch, pruneScan, bucketIncr, add32, Nat.mod_one, hu, b2, c2, c2']
  have s4 : LimitReached ⟨0, [(n, 1), (n + 1, 1), (n + 2, 1)]⟩ 60 3 1 (T + 3)
      = some (⟨n + 60, [(n, 1), (n + 1, 1), (n + 2, 1)]⟩, ⟨true, 3, true, false⟩) := by
    rw [LimitReached_eq_scanBranch (by decide) (by simp), e3]
    have hm : (n + 60) % 4294967296 = n + 60 := Nat.mod_eq_of_lt (by omega)
    simp [scanBranch, pruneScan, add32, hu, b3, c3, c3', c3'', hmx, m1, hm]
  have s5 : LimitReached ⟨n + 60, [(n, 1), (n + 1, 1), (n + 2, 1)]⟩ 60 3 1 (T + 61)
      = some (⟨0, [(n + 2, 1), (n + 61, 1)]⟩, ⟨false, 2, true, true⟩) := by
    rw [LimitReached_eq_scanBranch (by decide) (by simp [e61]), e61]
    simp [scanBranch, pruneScan, bucketIncr, add32, Nat.mod_one, hu, b61]
  rw [decisions_cons_some _ s1, decisions_cons_some _ s2, decisions_cons_some _ s3,
    decisions_cons_some _ s4, decisions_cons_some _ s5]
  simp [runCalls, decisions]

/-- Witness of C9 (as amended): base time `T = 1000`. -/
theorem C9_end_to_end_shifted_witness :
    decisions (runCalls 60 3 1 NewLimiter [1000, 1000 + 1, 1000 + 2, 1000 + 3, 1000 + 61])
      = some [(false, 1), (false, 2), (false, 3), (true, 3), (false, 2)] :=
  C9_end_to_end_shifted 1000 (by decide) (by decide)

/-! ## The restrictor: lock failure -/

/-- C10: if `Store.TryLock` returns not-acquired or a non-nil error, then
`LimitReachedAtTimeWithCount` returns `reached=true`, `count=0` and the error
of `TryLock`; the only store method it calls is that one `TryLock` (no
`GetLimiter`, `SetLimiter` or `Unlock`), so the store is left in the state
`TryLock` returned. This holds for every store, store state, key and time. -/
theorem C10_fail_closed_on_lock_failure {σ : Type} (r : Restrictor) (S : Store σ) (st : σ)
    (nano : Nat) (clock now : Int) (key : String)
    (h : (S.TryLock st key (toString nano)).2.1 = false
      ∨ (S.TryLock st key (toString nano)).2.2 ≠ none) :
    LimitReachedAtTimeWithCount r S st nano clock now key
      = ⟨(S.TryLock st key (toString nano)).1, [StoreCall.tryLock key (toString nano)],
          some (true, 0, (S.TryLock st key (toString nano)).2.2)⟩ := by
  have hc : (!(S.TryLock st key (toString nano)).2.1
      || (S.TryLock st key (toString nano)).2.2.isSome) = true := by
    rcases h with h | h
    · simp [h]
    · cases hx : (S.TryLock st key (toString nano)).2.2 with
      | none => exact absurd hx h
      | some e => simp
  simp only [LimitReachedAtTimeWithCount, hc, if_true]

/-- Witness of C10: the store whose lock is never acquired. -/
theorem C10_fail_closed_on_lock_failure_witness :
    LimitReachedAtTimeWithCount ⟨60, 3, 1, "p_"⟩ busyStore 0 5 0 1000 "k"
      = ⟨(busyStore.TryLock 0 "k" (toString 5)).1, [StoreCall.tryLock "k" (toString 5)],
          some (true, 0, (busyStore.TryLock 0 "k" (toString 5)).2.2)⟩ :=
  C10_fail_closed_on_lock_failure ⟨60, 3, 1, "p_"⟩ busyStore 0 5 0 1000 "k" (Or.inl rfl)

/-! ## Facts about bucket lists -/

theorem liveBuckets_eq_self {b : Nat} {l : List (Nat × Nat)} (h : ∀ e ∈ l, b < e.1) :
    liveBuckets b l = l := by
  unfold liveBuckets
  rw [List.filter_eq_self]
  intro e he
  simpa using h e he

theorem liveBuckets_eq_nil {b : Nat} {l : List (Nat × Nat)} (h : ∀ e ∈ l, e.1 ≤ b) :
    liveBuckets b l = [] := by
  unfold liveBuckets
  rw [List.filter_eq_nil_iff]
  intro e he
  have := h e he
  simp only [decide_eq_true_eq]
  omega

theorem mem_liveBuckets {b : Nat} {l : List (Nat × Nat)} {e : Nat × Nat} :
    e ∈ liveBuckets b l ↔ e ∈ l ∧ b < e.1 := by
  unfold liveBuckets
  simp [List.mem_filter]

theorem liveBuckets_liveBuckets {b c : Nat} (l : List (Nat × Nat)) (h : c ≤ b) :
    liveBuckets b (liveBuckets c l) = liveBuckets b l := by
  unfold liveBuckets
  rw [List.filter_filter]
  apply List.filter_congr
  intro e _
  by_cases hb : b < e.1
  · have hc : c < e.1 := by omega
    simp [hb, hc]
  · simp [hb]

theorem pruneScan_congr {b c : Nat} (l : List (Nat × Nat)) (tot old : Nat)
    (hb : ∀ e ∈ l, b < e.1) (hc : ∀ e ∈ l, c < e.1) :
    pruneScan b l tot old = pruneScan c l tot old := by
  induction l generalizing tot old with
  | nil => rfl
  | cons e rest ih =>
    obtain ⟨t, n⟩ := e
    have h1 : ¬ t ≤ b := by
      have := hb (t, n) (List.mem_cons_self _ _)
      simp only at this
      omega
    have h2 : ¬ t ≤ c := by
      have := hc (t, n) (List.mem_cons_self _ _)
      simp only at this
      omega
    simp only [pruneScan, h1, h2, if_false]
    rw [ih _ _ (fun e he => hb e (List.mem_cons_of_mem _ he))
      (fun e he => hc e (List.mem_cons_of_mem _ he))]

theorem pruneScan_liveBuckets (b : Nat) (l : List (Nat × Nat)) (tot old : Nat) :
    pruneScan b (liveBuckets b l) tot old = pruneScan b l tot old := by
  induction l generalizing tot old with
  | nil => rfl
  | cons e rest ih =>
    obtain ⟨t, n⟩ := e
    by_cases h : t ≤ b
    · have hn : ¬ b < t := by omega
      have hl : liveBuckets b ((t, n) :: rest) = liveBuckets b rest := by
        simp [liveBuckets, hn]
      rw [hl, ih]
      simp only [pruneScan, h, if_true]
    · have hn : b < t := by omega
      have hl : liveBuckets b ((t, n) :: rest) = (t, n) :: liveBuckets b rest := by
        simp [liveBuckets, hn]
      rw [hl]
      simp only [pruneScan, h, if_false]
      rw [ih]

theorem mem_le_sumCounts {l : List (Nat × Nat)} {e : Nat × Nat} (he : e ∈ l) :
    e.2 ≤ sumCounts l := by
  induction l with
  | nil => cases he
  | cons a rest ih =>
    simp only [sumCounts, List.map_cons, List.sum_cons]
    rcases List.mem_cons.1 he with rfl | h
    · omega
    · have := ih h
      unfold sumCounts at this
      omega

theorem sumCounts_liveBuckets_anti {b c : Nat} (l : List (Nat × Nat)) (h : b ≤ c) :
    sumCounts (liveBuckets c l) ≤ sumCounts (liveBuckets b l) := by
  induction l with
  | nil => simp [liveBuckets]
  | cons e rest ih =>
    unfold liveBuckets sumCounts at ih ⊢
    by_cases hc : c < e.1
    · have hb : b < e.1 := by omega
      simp only [List.filter_cons, hc, hb, decide_True, if_true, List.map_cons, List.sum_cons]
      omega
    · by_cases hb : b < e.1
      · simp only [List.filter_cons, hc, hb, decide_True, decide_False, if_true,
          List.map_cons, List.sum_cons]
        simp only [Bool.false_eq_true, if_false]
        omega
      · simp only [List.filter_cons, hc, hb, decide_False]
        simpa using ih

theorem sumCounts_liveBuckets_le (b : Nat) (l : List (Nat × Nat)) :
    sumCounts (liveBuckets b l) ≤ sumCounts l := by
  induction l with
  | nil => simp [liveBuckets]
  | cons e rest ih =>
    unfold liveBuckets sumCounts at ih ⊢
    by_cases hb : b < e.1
    · simp only [List.filter_cons, hb, decide_True, if_true, List.map_cons, List.sum_cons]
      omega
    · simp only [List.filter_cons, hb, decide_False, List.map_cons, List.sum_cons]
      simp only [Bool.false_eq_true, if_false]
      omega

theorem mem_bucketIncr {k : Nat} {l : List (Nat × Nat)} {e : Nat × Nat}
    (he : e ∈ bucketIncr k l) : e.1 = k ∨ e ∈ l := by
  induction l with
  | nil =>
    simp only [bucketIncr, List.mem_singleton] at he
    left
    rw [he]
  | cons a rest ih =>
    obtain ⟨t, c⟩ := a
    by_cases h : t = k
    · simp only [bucketIncr, h, if_true] at he
      rcases List.mem_cons.1 he with rfl | h'
      · left
        rfl
      · right
        exact List.mem_cons_of_mem _ h'
    · simp only [bucketIncr, h, if_false] at he
      rcases List.mem_cons.1 he with rfl | h'
      · right
        exact List.mem_cons_self _ _
      · rcases ih h' with h'' | h''
        · left
          exact h''
        · right
          exact List.mem_cons_of_mem _ h''

theorem sumCounts_liveBuckets_bucketIncr (b k : Nat) (l : List (Nat × Nat))
    (hc : ∀ e ∈ l, e.2 + 1 < u32) :
    sumCounts (liveBuckets b (bucketIncr k l))
      = sumCounts (liveBuckets b l) + (if b < k then 1 else 0) := by
  induction l with
  | nil =>
    by_cases hb : b < k
    · simp [bucketIncr, liveBuckets, sumCounts, hb]
    · simp [bucketIncr, liveBuckets, sumCounts, hb]
  | cons a rest ih =>
    obtain ⟨t, c⟩ := a
    have hc1 : (c + 1) % u32 = c + 1 :=
      Nat.mod_eq_of_lt (hc (t, c) (List.mem_cons_self _ _))
    have ih1 := ih (fun e he => hc e (List.mem_cons_of_mem _ he))
    unfold liveBuckets sumCounts at ih1 ⊢
    by_cases h : t = k
    · subst h
      by_cases hb : b < t
      · simp only [bucketIncr, if_true, List.filter_cons, hb, decide_True, List.map_cons,
          List.sum_cons, add32, hc1]
        omega
      · simp only [bucketIncr, if_true, List.filter_cons, hb, decide_False, if_false]
        simp
    · by_cases hb : b < t
      · simp only [bucketIncr, h, if_false, List.filter_cons, hb, decide_True, if_true,
          List.map_cons, List.sum_cons, ih1]
        omega
      · simp only [bucketIncr, h, if_false, List.filter_cons, hb, decide_False]
        simpa using ih1

theorem sumCounts_filter_le (q : Nat × Nat → Bool) (l : List (Nat × Nat)) :
    sumCounts (l.filter q) ≤ sumCounts l := by
  induction l with
  | nil => simp
  | cons e rest ih =>
    unfold sumCounts at ih ⊢
    by_cases hq : q e = true
    · simp only [List.filter_cons, hq, if_true, List.map_cons, List.sum_cons]
      omega
    · simp only [List.filter_cons, hq, List.map_cons, List.sum_cons]
      simp only [Bool.false_eq_true, if_false]
      omega

theorem sumCounts_bucketIncr (k : Nat) (l : List (Nat × Nat))
    (hc : ∀ e ∈ l, e.2 + 1 < u32) :
    sumCounts (bucketIncr k l) = sumCounts l + 1 := by
  induction l with
  | nil => simp [bucketIncr, sumCounts]
  | cons a rest ih =>
    obtain ⟨t, c⟩ := a
    have hc1 : (c + 1) % u32 = c + 1 :=
      Nat.mod_eq_of_lt (hc (t, c) (List.mem_cons_self _ _))
    have ih1 := ih (fun e he => hc e (List.mem_cons_of_mem _ he))
    unfold sumCounts at ih1 ⊢
    by_cases h : t = k
    · simp only [bucketIncr, h, if_true, List.map_cons, List.sum_cons, add32, hc1]
      omega
    · simp only [bucketIncr, h, if_false, List.map_cons, List.sum_cons, ih1]
      omega

theorem inWindow_eq_liveBuckets {window tl : Nat} (l : List (Nat × Nat)) (h : window ≤ tl) :
    inWindow window tl l = liveBuckets (tl - window) l := by
  unfold inWindow liveBuckets
  apply List.filter_congr
  intro e _
  by_cases hb : tl < e.1 + window
  · have hc : tl - window < e.1 := by omega
    simp [hb, hc]
  · have hc : ¬ tl - window < e.1 := by omega
    simp [hb, hc]

theorem sumCounts_inWindow_anti {window tl ts : Nat} (l : List (Nat × Nat)) (h : tl ≤ ts) :
    sumCounts (inWindow window ts l) ≤ sumCounts (inWindow window tl l) := by
  induction l with
  | nil => simp [inWindow]
  | cons e rest ih =>
    unfold inWindow sumCounts at ih ⊢
    by_cases hc : ts < e.1 + window
    · have hb : tl < e.1 + window := by omega
      simp only [List.filter_cons, hc, hb, decide_True, if_true, List.map_cons, List.sum_cons]
      omega
    · by_cases hb : tl < e.1 + window
      · simp only [List.filter_cons, hc, hb, decide_True, decide_False, if_true,
          List.map_cons, List.sum_cons]
        simp only [Bool.false_eq_true, if_false]
        omega
      · simp only [List.filter_cons, hc, hb, decide_False]
        simpa using ih

/-! ## One call, by cases -/

/-- The three ways a call with a non-zero bucket span ends: the limiter is left
as it was (limit 0 or fast path), the call is admitted by the scan, or the call
is rejected by the scan. -/
theorem LimitReached_cases (s : Limiter) (window limit interval : Nat) (now : Int)
    (hi : 0 < interval) :
    ((limit = 0 ∨ unixTs now < s.FullUntil)
      ∧ LimitReached s window limit interval now = some (s, ⟨true, limit, false, false⟩))
    ∨ (limit ≠ 0 ∧ s.FullUntil ≤ unixTs now
      ∧ sumCounts (liveBuckets (sub32 (unixTs now) window) s.Buckets) % u32 < limit
      ∧ LimitReached s window limit interval now
        = some (⟨0, bucketIncr (unixTs now - unixTs now % interval)
              (liveBuckets (sub32 (unixTs now) window) s.Buckets)⟩,
            ⟨false, add32 (sumCounts (liveBuckets (sub32 (unixTs now) window) s.Buckets) % u32) 1,
              true, true⟩))
    ∨ (limit ≠ 0 ∧ s.FullUntil ≤ unixTs now
      ∧ limit ≤ sumCounts (liveBuckets (sub32 (unixTs now) window) s.Buckets) % u32
      ∧ LimitReached s window limit interval now
        = some (⟨add32 (pruneScan (sub32 (unixTs now) window) s.Buckets 0 MaxUint32).2.1 window,
              liveBuckets (sub32 (unixTs now) window) s.Buckets⟩,
            ⟨true, limit, true, false⟩)) := by
  by_cases hl : limit = 0
  · left
    subst hl
    exact ⟨Or.inl rfl, by simp [LimitReached]⟩
  · by_cases hf : unixTs now < s.FullUntil
    · left
      exact ⟨Or.inr hf, by simp [LimitReached, hl, hf]⟩
    · right
      rw [LimitReached_eq_scanBranch hl hf]
      by_cases hlt : sumCounts (liveBuckets (sub32 (unixTs now) window) s.Buckets) % u32 < limit
      · left
        exact ⟨hl, by omega, hlt, scanBranch_admitted (by omega) hlt⟩
      · right
        exact ⟨hl, by omega, by omega, scanBranch_rejected (by omega)⟩

theorem unixTs_lt (now : Int) : unixTs now < u32 := by
  unfold unixTs u32
  omega

/-- What the scan sees under the invariant: the surviving buckets hold at most
`limit` events and none of them is in the future. -/
theorem Inv_scan_bound {window limit : Nat} {s : Limiter} {tl ts : Nat}
    (h : Inv window limit s tl) (hw : window < u32) (htl : tl ≤ ts) (hts : ts < u32) :
    sumCounts (liveBuckets (sub32 ts window) s.Buckets) ≤ limit
    ∧ ∀ e ∈ liveBuckets (sub32 ts window) s.Buckets, e.1 ≤ ts := by
  refine ⟨?_, ?_⟩
  · by_cases hwt : window ≤ ts
    · rw [sub32_of_le hwt hts, ← inWindow_eq_liveBuckets _ hwt]
      exact Nat.le_trans (sumCounts_inWindow_anti _ htl) h.cap
    · rw [sub32_of_lt (by omega) hw]
      have : liveBuckets (ts + u32 - window) s.Buckets = [] := by
        apply liveBuckets_eq_nil
        intro e he
        have := h.keys_le e he
        omega
      rw [this]
      simp [sumCounts]
  · intro e he
    have := h.keys_le e (mem_liveBuckets.1 he).1
    omega

/-- Every call with a non-zero bucket span returns and keeps the invariant. -/
theorem Inv_step {window limit interval : Nat} {s : Limiter} {tl : Nat} (now : Int)
    (h : Inv window limit s tl) (hw : window < u32) (hl : limit < u32) (hi : 0 < interval)
    (htl : tl ≤ unixTs now) :
    ∃ s1 v, LimitReached s window limit interval now = some (s1, v)
      ∧ Inv window limit s1 (unixTs now) := by
  have hts := unixTs_lt now
  obtain ⟨hsum, hkeys⟩ := Inv_scan_bound h hw htl hts
  rcases LimitReached_cases s window limit interval now hi with
    ⟨_, he⟩ | ⟨hl0, hf, hlt, he⟩ | ⟨hl0, hf, hge, he⟩
  · refine ⟨_, _, he, ?_, ?_, ?_⟩
    · intro e hm
      have := h.keys_le e hm
      omega
    · exact Nat.le_trans (sumCounts_inWindow_anti _ htl) h.cap
    · intro hne
      obtain ⟨t0, h1, h2⟩ := h.full hne
      exact ⟨t0, by omega, h2⟩
  · rw [Nat.mod_eq_of_lt (by omega)] at hlt
    refine ⟨_, _, he, ?_, ?_, ?_⟩
    · intro e hm
      rcases mem_bucketIncr hm with h1 | h1
      · show e.1 ≤ unixTs now
        rw [h1]
        exact Nat.sub_le _ _
      · exact hkeys e h1
    · refine Nat.le_trans (sumCounts_filter_le _ _) ?_
      rw [sumCounts_bucketIncr]
      · omega
      · intro e hm
        have := mem_le_sumCounts hm
        omega
    · intro hne
      exact absurd rfl hne
  · refine ⟨_, _, he, hkeys, ?_, ?_⟩
    · exact Nat.le_trans (sumCounts_filter_le _ _) hsum
    · intro _
      refine ⟨unixTs now, Nat.le_refl _, ?_, ?_, ?_⟩
      · intro e hm
        exact ⟨(mem_liveBuckets.1 hm).2, hkeys e hm⟩
      · show limit ≤ (pruneScan _ (liveBuckets _ _) 0 MaxUint32).1
        rw [pruneScan_liveBuckets, pruneScan_total _ _ _ _ (by decide), Nat.zero_add]
        exact hge
      · show add32 _ window = add32 (pruneScan _ (liveBuckets _ _) 0 MaxUint32).2.1 window
        rw [pruneScan_liveBuckets]

theorem Inv_init (window limit : Nat) : Inv window limit NewLimiter 0 := by
  refine ⟨?_, ?_, ?_⟩
  · intro e he
    cases he
  · simp [NewLimiter, inWindow, sumCounts]
  · intro h
    exact absurd rfl h

/-- The invariant holds along every run of calls at non-decreasing times that
fit a `uint32`, and every such run returns. -/
theorem Inv_run {window limit interval : Nat} (hw : window < u32) (hl : limit < u32)
    (hi : 0 < interval) (times : List Int) :
    ∀ (s : Limiter) (tl : Nat), Inv window limit s tl →
      List.Chain (fun a b : Int => a ≤ b) (tl : Int) times →
      (∀ t ∈ times, t < 4294967296) →
      ∃ s1 vs tl1, runCalls window limit interval s times = some (s1, vs)
        ∧ Inv window limit s1 tl1 ∧ vs.length = times.length
        ∧ (tl1 = tl ∨ ∃ t ∈ times, tl1 = unixTs t) := by
  induction times with
  | nil =>
    intro s tl h _ _
    exact ⟨s, [], tl, rfl, h, rfl, Or.inl rfl⟩
  | cons t rest ih =>
    intro s tl h hch hr
    obtain ⟨hle, hch1⟩ := List.chain_cons.1 hch
    have ht := hr t (List.mem_cons_self _ _)
    have hcast : (unixTs t : Int) = t := unixTs_of_range (by omega) ht
    obtain ⟨s1, v, he, h1⟩ := Inv_step t h hw hl hi (by omega)
    obtain ⟨s2, vs, tl2, hrun, h2, hlen, hlast⟩ :=
      ih s1 (unixTs t) h1 (by rw [hcast]; exact hch1)
        (fun x hx => hr x (List.mem_cons_of_mem _ hx))
    refine ⟨s2, v :: vs, tl2, ?_, h2, by simp [hlen], ?_⟩
    · rw [runCalls_cons_some rest he, hrun]
      rfl
    · right
      rcases hlast with h3 | ⟨x, hx, h3⟩
      · exact ⟨t, List.mem_cons_self _ _, h3⟩
      · exact ⟨x, List.mem_cons_of_mem _ hx, h3⟩

theorem chain_of_chain' {times : List Int} (hs : times.Chain' (fun a b : Int => a ≤ b))
    (h0 : ∀ t ∈ times, 0 ≤ t) : List.Chain (fun a b : Int => a ≤ b) ((0 : Nat) : Int) times := by
  cases times with
  | nil => exact List.Chain.nil
  | cons t rest =>
    exact List.chain_cons.2 ⟨by simpa using h0 t (List.mem_cons_self _ _), hs⟩

/-- With a zero bucket span and a non-zero limit the first call on an empty
limiter panics, so only the empty run returns. -/
theorem runCalls_zero_interval {window limit : Nat} (hl0 : 0 < limit) {times : List Int}
    {s : Limiter} {vs : List Verdict}
    (h : runCalls window limit 0 NewLimiter times = some (s, vs)) : s = NewLimiter := by
  cases times with
  | nil =>
    simp only [runCalls, Option.some.injEq, Prod.mk.injEq] at h
    exact h.1.symm
  | cons t rest =>
    have hl1 : limit ≠ 0 := by omega
    have hp : LimitReached NewLimiter window limit 0 t = none := by
      rw [LimitReached_eq_scanBranch hl1 (by simp [NewLimiter])]
      simp [scanBranch, NewLimiter, pruneScan, hl0]
    rw [runCalls, hp] at h
    cases h

/-! ## The fast path -/

/-- Under the invariant, a call on the fast path returns what the scan branch
would have returned at the same time, leaves the limiter as the scan would,
and the window holds exactly `limit` events. -/
theorem Inv_fast_path {window limit interval : Nat} {s : Limiter} {tl : Nat} {now : Int}
    (h : Inv window limit s tl) (hw : window < u32) (hl0 : 0 < limit) (hl : limit < u32)
    (htl : tl ≤ unixTs now) (hf : unixTs now < s.FullUntil) :
    LimitReached s window limit interval now = some (s, ⟨true, limit, false, false⟩)
    ∧ scanBranch s window limit interval (unixTs now) = some (s, ⟨true, limit, true, false⟩)
    ∧ GetCount s window now = limit := by
  have hts := unixTs_lt now
  have hl1 : limit ≠ 0 := by omega
  have hne : s.FullUntil ≠ 0 := by omega
  obtain ⟨t0, ht0, hkeys, hge, hfu⟩ := h.full hne
  have hlive0 : liveBuckets (sub32 t0 window) s.Buckets = s.Buckets :=
    liveBuckets_eq_self (fun e he => (hkeys e he).1)
  have htot0 := pruneScan_total (sub32 t0 window) s.Buckets 0 MaxUint32 (by decide)
  rw [Nat.zero_add, hlive0] at htot0
  obtain ⟨_, ho2, ho3⟩ := pruneScan_oldest (sub32 t0 window) s.Buckets 0 MaxUint32
  rw [hlive0] at ho2 ho3
  have hnil : s.Buckets ≠ [] := by
    intro hnil
    rw [htot0, hnil] at hge
    simp [sumCounts] at hge
    omega
  obtain ⟨e0, he0⟩ := List.exists_mem_of_ne_nil _ hnil
  -- the oldest timestamp is the timestamp of a bucket
  have hold : ∃ e ∈ s.Buckets, e.1 = (pruneScan (sub32 t0 window) s.Buckets 0 MaxUint32).2.1 := by
    rcases ho3 with ho3 | ho3
    · refine ⟨e0, he0, ?_⟩
      have h1 := ho2 e0 he0
      have h2 := (hkeys e0 he0).2
      rw [ho3] at h1 ⊢
      unfold MaxUint32 at *
      unfold u32 at hts
      omega
    · exact ho3
  obtain ⟨eo, heo, heq⟩ := hold
  obtain ⟨hk1, hk2⟩ := hkeys eo heo
  rw [← heq] at hfu ho2
  -- no wrap at `t0`, and none in `FullUntil`
  have hwt : window ≤ t0 := by
    by_contra hc
    rw [sub32_of_lt (by omega) hw] at hk1
    omega
  rw [sub32_of_le hwt (by omega)] at hk1
  have hfu1 : s.FullUntil = eo.1 + window := by
    rw [hfu]
    unfold add32
    by_cases hov : eo.1 + window < u32
    · exact Nat.mod_eq_of_lt hov
    · exfalso
      have : (eo.1 + window) % u32 = eo.1 + window - u32 := by
        unfold u32 at *
        omega
      rw [hfu] at hf
      unfold add32 at hf
      omega
  have hb : sub32 (unixTs now) window = unixTs now - window := sub32_of_le (by omega) hts
  have hall : ∀ e ∈ s.Buckets, sub32 (unixTs now) window < e.1 := by
    intro e he
    have := ho2 e he
    rw [hb]
    omega
  have hlive : liveBuckets (sub32 (unixTs now) window) s.Buckets = s.Buckets :=
    liveBuckets_eq_self hall
  have hcongr := pruneScan_congr s.Buckets 0 MaxUint32 hall (fun e he => (hkeys e he).1)
  have hsum : sumCounts s.Buckets = limit := by
    have hin : inWindow window tl s.Buckets = s.Buckets := by
      unfold inWindow
      rw [List.filter_eq_self]
      intro e he
      have := hall e he
      rw [hb] at this
      simp only [decide_eq_true_eq]
      omega
    have hcap := h.cap
    rw [hin] at hcap
    rw [htot0, Nat.mod_eq_of_lt (by omega)] at hge
    omega
  refine ⟨by simp [LimitReached, hl1, hf], ?_, ?_⟩
  · rw [scanBranch_rejected (by rw [hlive, hsum, Nat.mod_eq_of_lt hl]), hlive, hcongr, ← heq,
      ← hfu]
  · rw [GetCount_eq, hlive, hsum, Nat.mod_eq_of_lt hl]

/-- The fast path while the Unix time fits a `uint32`: for every limiter `s`
reached from the empty limiter by `LimitReached` calls with a fixed
`(window, limit > 0, bucketSpan)` at non-decreasing times `0 ≤ t < 2^32`, and
every later `now < 2^32` with `now < FullUntil`:
`LimitReached` returns `reached=true, count=limit` and leaves the limiter as it
was; the prune-and-scan branch run on `s` at that `now` returns the same
decision and count and the same limiter `s`; and the window is at capacity,
`GetCount(window, now) = limit`. -/
theorem fast_path_sound_in_range (window limit interval : Nat) (times : List Int) (now : Int)
    (s : Limiter) (vs : List Verdict) (hw : window < u32) (hl0 : 0 < limit) (hl : limit < u32)
    (hrun : runCalls window limit interval NewLimiter times = some (s, vs))
    (hsorted : times.Chain' (fun a b : Int => a ≤ b))
    (hrange : ∀ t ∈ times, 0 ≤ t ∧ t < 4294967296)
    (hlater : ∀ t ∈ times, t ≤ now) (hnow : now < 4294967296)
    (hf : unixTs now < s.FullUntil) :
    LimitReached s window limit interval now = some (s, ⟨true, limit, false, false⟩)
    ∧ scanBranch s window limit interval (unixTs now) = some (s, ⟨true, limit, true, false⟩)
    ∧ GetCount s window now = limit := by
  by_cases hi : interval = 0
  · subst hi
    rw [runCalls_zero_interval hl0 hrun] at hf
    simp [NewLimiter] at hf
  · obtain ⟨s1, vs1, tl, hrun1, hinv, _, hlast⟩ :=
      Inv_run hw hl (by omega : 0 < interval) times NewLimiter 0 (Inv_init window limit)
        (chain_of_chain' hsorted (fun t ht => (hrange t ht).1))
        (fun t ht => (hrange t ht).2)
    rw [hrun] at hrun1
    simp only [Option.some.injEq, Prod.mk.injEq] at hrun1
    obtain ⟨rfl, rfl⟩ := hrun1
    refine Inv_fast_path hinv hw hl0 hl ?_ hf
    rcases hlast with h0 | ⟨t, ht, h1⟩
    · omega
    · have h2 := hlater t ht
      have h3 := hrange t ht
      have h4 : (unixTs t : Int) = t := unixTs_of_range h3.1 h3.2
      have h5 : (unixTs now : Int) = now := unixTs_of_range (by omega) hnow
      omega

/-- An instance of `fast_path_sound_in_range`: `window = 60`, `limit = 1`,
`bucketSpan = 1`; the calls at 1000 and 1001 leave `FullUntil = 1060`, and
`now = 1010`. -/
theorem fast_path_sound_in_range_example :
    LimitReached ⟨1060, [(1000, 1)]⟩ 60 1 1 1010
        = some (⟨1060, [(1000, 1)]⟩, ⟨true, 1, false, false⟩)
    ∧ scanBranch ⟨1060, [(1000, 1)]⟩ 60 1 1 (unixTs 1010)
        = some (⟨1060, [(1000, 1)]⟩, ⟨true, 1, true, false⟩)
    ∧ GetCount ⟨1060, [(1000, 1)]⟩ 60 1010 = 1 :=
  fast_path_sound_in_range 60 1 1 [1000, 1001] 1010 ⟨1060, [(1000, 1)]⟩
    [⟨false, 1, true, true⟩, ⟨true, 1, true, false⟩] (by decide) (by decide) (by decide)
    (by decide) (by simp) (by decide) (by decide) (by decide) (by decide)

/-! ## Rejected calls and the count -/

/-- A rejected call leaves every `GetCount(w, now)` with `w ≤ window` as it was
whenever `now - window` and `now - w` wrap together or not at all. -/
theorem GetCount_rejected_of_no_wrap (s s1 : Limiter) (window limit interval w : Nat)
    (now : Int) (v : Verdict) (hw : window < u32) (hww : w ≤ window)
    (hnw : window ≤ unixTs now ∨ unixTs now < w)
    (h : LimitReached s window limit interval now = some (s1, v)) (hv : v.reached = true) :
    GetCount s1 w now = GetCount s w now := by
  have hts := unixTs_lt now
  by_cases hl : limit = 0
  · subst hl
    simp only [LimitReached, if_true, Option.some.injEq, Prod.mk.injEq] at h
    rw [← h.1]
  · by_cases hf : unixTs now < s.FullUntil
    · simp only [LimitReached, hl, hf, if_true, if_false, Option.some.injEq, Prod.mk.injEq] at h
      rw [← h.1]
    · rw [LimitReached_eq_scanBranch hl hf] at h
      by_cases hlt : sumCounts (liveBuckets (sub32 (unixTs now) window) s.Buckets) % u32 < limit
      · by_cases hi : interval = 0
        · simp [scanBranch, pruneScan_total _ _ _ _ (show 0 < u32 by decide), hlt, hi] at h
        · rw [scanBranch_admitted hi hlt] at h
          simp only [Option.some.injEq, Prod.mk.injEq] at h
          rw [← h.2] at hv
          cases hv
      · rw [scanBranch_rejected (by omega)] at h
        simp only [Option.some.injEq, Prod.mk.injEq] at h
        rw [← h.1, GetCount_eq, GetCount_eq]
        have hb : sub32 (unixTs now) window ≤ sub32 (unixTs now) w := by
          rcases hnw with h1 | h1
          · rw [sub32_of_le h1 hts, sub32_of_le (by omega) hts]
            omega
          · rw [sub32_of_lt (by omega) hw, sub32_of_lt h1 (by omega)]
            omega
        show sumCounts (liveBuckets _ (liveBuckets _ _)) % u32 = _
        rw [liveBuckets_liveBuckets _ hb]

/-! ## The count inside one window -/

theorem norm_mono {a b : Nat} (i : Nat) (h : a ≤ b) : a - a % i ≤ b - b % i := by
  have ha := Nat.div_add_mod a i
  have hb := Nat.div_add_mod b i
  have hd : i * (a / i) ≤ i * (b / i) := Nat.mul_le_mul_left _ (Nat.div_le_div_right h)
  omega

/-- While every call lies at or after `t1`, at or after `window` and before
`n1 + window`, where `n1` is the bucket of `t1`, no bucket at or above `n1` is
pruned and the buckets count the admitted calls. -/
theorem run_within_window {window limit interval : Nat} (hl : limit < u32)
    (hi : 0 < interval) (t1 : Nat) (times : List Int) :
    ∀ s : Limiter, (∀ e ∈ s.Buckets, t1 - t1 % interval ≤ e.1) →
      sumCounts s.Buckets ≤ limit →
      (∀ t ∈ times, window ≤ unixTs t ∧ t1 ≤ unixTs t
        ∧ unixTs t < t1 - t1 % interval + window) →
      ∃ s1 vs, runCalls window limit interval s times = some (s1, vs)
        ∧ (∀ e ∈ s1.Buckets, t1 - t1 % interval ≤ e.1)
        ∧ sumCounts s1.Buckets ≤ limit
        ∧ sumCounts s1.Buckets = sumCounts s.Buckets + admittedCount vs := by
  induction times with
  | nil =>
    intro s hk hs _
    exact ⟨s, [], rfl, hk, hs, by simp [admittedCount]⟩
  | cons t rest ih =>
    intro s hk hs ht
    obtain ⟨htw, ht1, htn⟩ := ht t (List.mem_cons_self _ _)
    have hts := unixTs_lt t
    have hlive : liveBuckets (sub32 (unixTs t) window) s.Buckets = s.Buckets := by
      apply liveBuckets_eq_self
      intro e he
      have := hk e he
      rw [sub32_of_le htw hts]
      omega
    have hrest : ∀ x ∈ rest, window ≤ unixTs x ∧ t1 ≤ unixTs x
        ∧ unixTs x < t1 - t1 % interval + window :=
      fun x hx => ht x (List.mem_cons_of_mem _ hx)
    rcases LimitReached_cases s window limit interval t hi with
      ⟨_, he⟩ | ⟨_, _, hlt, he⟩ | ⟨_, _, _, he⟩
    · obtain ⟨s2, vs, hrun, hk2, hs2, hsum⟩ := ih s hk hs hrest
      refine ⟨s2, (⟨true, limit, false, false⟩ : Verdict) :: vs, ?_, hk2, hs2, ?_⟩
      · rw [runCalls_cons_some rest he, hrun]
        rfl
      · rw [hsum]
        simp [admittedCount]
    · rw [hlive] at he hlt
      rw [Nat.mod_eq_of_lt (by omega)] at hlt
      have hsum1 : sumCounts (bucketIncr (unixTs t - unixTs t % interval) s.Buckets)
          = sumCounts s.Buckets + 1 := by
        apply sumCounts_bucketIncr
        intro e hm
        have := mem_le_sumCounts hm
        omega
      obtain ⟨s2, vs, hrun, hk2, hs2, hsum⟩ :=
        ih ⟨0, bucketIncr (unixTs t - unixTs t % interval) s.Buckets⟩
          (by
            intro e hm
            rcases mem_bucketIncr hm with h1 | h1
            · rw [h1]
              exact norm_mono interval ht1
            · exact hk e h1)
          (by
            show sumCounts (bucketIncr _ _) ≤ limit
            omega)
          hrest
      refine ⟨s2, (⟨false, add32 (sumCounts s.Buckets % u32) 1, true, true⟩ : Verdict) :: vs, ?_, hk2, hs2, ?_⟩
      · rw [runCalls_cons_some rest he, hrun]
        rfl
      · rw [hsum]
        show _ = sumCounts s.Buckets + admittedCount (_ :: vs)
        simp only [admittedCount, List.countP_cons] at hsum1 ⊢
        simp only [Bool.not_false, if_true]
        omega
    · rw [hlive] at he
      obtain ⟨s2, vs, hrun, hk2, hs2, hsum⟩ :=
        ih ⟨add32 (pruneScan (sub32 (unixTs t) window) s.Buckets 0 MaxUint32).2.1 window,
          s.Buckets⟩ hk hs hrest
      refine ⟨s2, (⟨true, limit, true, false⟩ : Verdict) :: vs, ?_, hk2, hs2, ?_⟩
      · rw [runCalls_cons_some rest he, hrun]
        rfl
      · rw [hsum]
        simp [admittedCount]

theorem head_le_of_chain' {t1 : Int} {rest : List Int}
    (hs : (t1 :: rest).Chain' (fun a b : Int => a ≤ b)) : ∀ t ∈ t1 :: rest, t1 ≤ t := by
  intro t ht
  rcases List.mem_cons.1 ht with rfl | h
  · exact Int.le_refl _
  · have hp : List.Pairwise (fun a b : Int => a ≤ b) (t1 :: rest) :=
      List.chain_iff_pairwise.1 hs
    exact List.rel_of_pairwise_cons hp h

/-- C7 fails as stated: with `window = 10`, `limit = 2`, `bucketSpan = 5` the
calls at 1000000004 and 1000000012 lie within one window (8 < 10) and are both
admitted, but the first is counted in the bucket 1000000000, which the second
call prunes: `GetCount(10, 1000000012)` is 1, not 2. -/
theorem C7_count_counterexample :
    runCalls 10 2 5 NewLimiter [1000000004, 1000000012]
      = some (⟨0, [(1000000010, 1)]⟩, [⟨false, 1, true, true⟩, ⟨false, 1, true, true⟩])
    ∧ admittedCount [⟨false, 1, true, true⟩, ⟨false, 1, true, true⟩] = 2
    ∧ GetCount ⟨0, [(1000000010, 1)]⟩ 10 1000000012 = 1 := by
  decide

/-- C7 (as amended): for every `(window, limit, bucketSpan > 0)` and every
sequence of `LimitReached` calls on an empty limiter at non-decreasing times
`t_1 ≤ ... ≤ t_m` with `window ≤ t_1` (no `uint32` wrap), and every `now` from
`t_m` on that fits a `uint32` and lies within one window of the bucket of the
first call, `now - (t_1 - t_1 mod bucketSpan) < window`: all the calls return
and `GetCount(window, now)` after the sequence is the number of calls that
returned `reached=false`. In particular this holds at `now = t_m`. -/
theorem C7_count_equals_admitted (window limit interval : Nat) (t1 : Int) (rest : List Int)
    (now : Int) (hl : limit < u32) (hi : 0 < interval)
    (hsorted : (t1 :: rest).Chain' (fun a b : Int => a ≤ b))
    (hw : (window : Int) ≤ t1) (hlast : ∀ t ∈ t1 :: rest, t ≤ now)
    (hnow : now < 4294967296)
    (hwin : now - (t1 - t1 % (interval : Int)) < (window : Int)) :
    ∃ s vs, runCalls window limit interval NewLimiter (t1 :: rest) = some (s, vs)
      ∧ GetCount s window now = admittedCount vs := by
  have hhead := head_le_of_chain' hsorted
  have h1now : t1 ≤ now := hlast t1 (List.mem_cons_self _ _)
  have e1 : (unixTs t1 : Int) = t1 := unixTs_of_range (by omega) (by omega)
  have enow : (unixTs now : Int) = now := unixTs_of_range (by omega) hnow
  obtain ⟨m, hmdef⟩ : ∃ m, unixTs t1 % interval = m := ⟨_, rfl⟩
  have hm : t1 % (interval : Int) = (m : Int) := by
    rw [← hmdef]
    push_cast
    rw [e1]
  have hmle : m ≤ unixTs t1 := hmdef ▸ Nat.mod_le _ _
  rw [hm] at hwin
  have hall : ∀ t ∈ t1 :: rest, window ≤ unixTs t ∧ unixTs t1 ≤ unixTs t
      ∧ unixTs t < unixTs t1 - unixTs t1 % interval + window := by
    intro t ht
    have h2 := hhead t ht
    have h3 := hlast t ht
    have et : (unixTs t : Int) = t := unixTs_of_range (by omega) (by omega)
    rw [hmdef]
    omega
  obtain ⟨s, vs, hrun, hk, hs, hsum⟩ :=
    run_within_window hl hi (unixTs t1) (t1 :: rest) NewLimiter
      (by intro e he; cases he) (by simp [NewLimiter, sumCounts]) hall
  refine ⟨s, vs, hrun, ?_⟩
  have hlive : liveBuckets (sub32 (unixTs now) window) s.Buckets = s.Buckets := by
    apply liveBuckets_eq_self
    intro e he
    have h2 := hk e he
    rw [sub32_of_le (by omega) (unixTs_lt now)]
    rw [hmdef] at h2
    omega
  rw [GetCount_eq, hlive, Nat.mod_eq_of_lt (by omega), hsum]
  simp [NewLimiter, sumCounts]

/-- Witness of C7 (as amended): `window = 10`, `limit = 2`, `bucketSpan = 5`,
calls at 1000000005 and 1000000012, `now = 1000000012`. -/
theorem C7_count_equals_admitted_witness :
    ∃ s vs, runCalls 10 2 5 NewLimiter (1000000005 :: [1000000012]) = some (s, vs)
      ∧ GetCount s 10 1000000012 = admittedCount vs :=
  C7_count_equals_admitted 10 2 5 1000000005 [1000000012] 1000000012 (by decide) (by decide)
    (by simp) (by decide) (by simp) (by decide) (by decide)

/-! ## At most `limit` admitted calls per window -/

theorem admittedTimes_cons (t : Int) (rest : List Int) (v : Verdict) (vs : List Verdict) :
    admittedTimes (t :: rest) (v :: vs)
      = (if v.reached then [] else [t]) ++ admittedTimes rest vs := by
  unfold admittedTimes
  cases hv : v.reached <;> simp [List.zip_cons_cons, List.filter_cons, hv]

theorem Hist_init (window limit interval tl : Nat) :
    Hist window limit interval NewLimiter [] tl := by
  refine ⟨?_, ?_, ?_, ?_⟩
  · intro a ha
    cases ha
  · intro b _
    simp [NewLimiter, liveBuckets, sumCounts]
  · simp [NewLimiter, liveBuckets, sumCounts]
  · intro T
    simp [countIn]

/-- Every call at a time `t` with `window ≤ t < 2^32`, not before the last
call, returns and keeps the history invariant; an admitted call joins the
history. -/
theorem Hist_step {window limit interval : Nat} {s : Limiter} {A : List Int} {tl : Nat}
    (t : Int) (h : Hist window limit interval s A tl) (hl : limit < u32) (hi : 0 < interval)
    (hw : (window : Int) ≤ t) (ht : t < 4294967296) (htl : (tl : Int) ≤ t) :
    ∃ s1 v, LimitReached s window limit interval t = some (s1, v)
      ∧ Hist window limit interval s1 (A ++ (if v.reached then [] else [t])) (unixTs t) := by
  have hts := unixTs_lt t
  have et : (unixTs t : Int) = t := unixTs_of_range (by omega) ht
  have hwt : window ≤ unixTs t := by omega
  have htl1 : tl ≤ unixTs t := by omega
  have hb : sub32 (unixTs t) window = unixTs t - window := sub32_of_le hwt hts
  have hlo : tl - window ≤ unixTs t - window := by omega
  have hsum : sumCounts (liveBuckets (unixTs t - window) s.Buckets) ≤ limit :=
    Nat.le_trans (sumCounts_liveBuckets_anti _ hlo) h.cap
  rcases LimitReached_cases s window limit interval t hi with
    ⟨_, he⟩ | ⟨_, _, hlt, he⟩ | ⟨_, _, _, he⟩
  · refine ⟨_, _, he, ?_⟩
    simp only [if_true, List.append_nil]
    refine ⟨?_, ?_, hsum, h.spread⟩
    · intro a ha
      have := h.times_le a ha
      omega
    · intro b hbb
      exact h.counted b (by omega)
  · rw [hb] at he hlt
    rw [Nat.mod_eq_of_lt (by omega)] at hlt
    refine ⟨_, _, he, ?_⟩
    simp only [Bool.false_eq_true, if_false]
    have hcnt : ∀ e ∈ liveBuckets (unixTs t - window) s.Buckets, e.2 + 1 < u32 := by
      intro e hm
      have := mem_le_sumCounts hm
      omega
    have hcounted : ∀ b, unixTs t - window ≤ b →
        (A ++ [t]).countP (fun a => decide (b < bucketOf interval a))
          = sumCounts (liveBuckets b (bucketIncr (unixTs t - unixTs t % interval)
              (liveBuckets (unixTs t - window) s.Buckets))) := by
      intro b hbb
      rw [sumCounts_liveBuckets_bucketIncr _ _ _ hcnt, liveBuckets_liveBuckets _ hbb,
        List.countP_append, h.counted b (by omega)]
      by_cases hbn : b < unixTs t - unixTs t % interval
      · simp [bucketOf, hbn]
      · simp [bucketOf, hbn]
    have hcap : sumCounts (liveBuckets (unixTs t - window)
        (bucketIncr (unixTs t - unixTs t % interval)
          (liveBuckets (unixTs t - window) s.Buckets))) ≤ limit := by
      rw [sumCounts_liveBuckets_bucketIncr _ _ _ hcnt, liveBuckets_liveBuckets _ (Nat.le_refl _)]
      split <;> omega
    have htimes : ∀ a ∈ A ++ [t], 0 ≤ a ∧ a ≤ ((unixTs t : Nat) : Int) := by
      intro a ha
      rcases List.mem_append.1 ha with h1 | h1
      · have := h.times_le a h1
        omega
      · rw [List.mem_singleton.1 h1]
        omega
    refine ⟨htimes, hcounted, hcap, ?_⟩
    intro T
    by_cases hin : T - ((window : Int) - (interval : Int) + 1) < t ∧ t ≤ T
    · refine Nat.le_trans ?_ hcap
      rw [← hcounted _ (Nat.le_refl _)]
      unfold countIn
      apply List.countP_mono_left
      intro a ha hpa
      simp only [Bool.and_eq_true, decide_eq_true_eq] at hpa ⊢
      obtain ⟨ha0, ha1⟩ := htimes a ha
      have ea : (unixTs a : Int) = a := unixTs_of_range ha0 (by omega)
      have hmod : unixTs a % interval < interval := Nat.mod_lt _ hi
      have hmle : unixTs a % interval ≤ unixTs a := Nat.mod_le _ _
      unfold bucketOf
      omega
    · have hold := h.spread T
      unfold countIn at hold ⊢
      rw [List.countP_append]
      have : [t].countP (fun a => decide (T - ((window : Int) - (interval : Int) + 1) < a)
          && decide (a ≤ T)) = 0 := by
        rw [List.countP_eq_zero]
        intro a ha
        rw [List.mem_singleton.1 ha]
        simp only [Bool.and_eq_true, decide_eq_true_eq]
        exact hin
      omega
  · rw [hb] at he
    refine ⟨_, _, he, ?_⟩
    simp only [if_true, List.append_nil]
    refine ⟨?_, ?_, ?_, h.spread⟩
    · intro a ha
      have := h.times_le a ha
      omega
    · intro b hbb
      show _ = sumCounts (liveBuckets b (liveBuckets _ _))
      rw [liveBuckets_liveBuckets _ hbb]
      exact h.counted b (by omega)
    · show sumCounts (liveBuckets _ (liveBuckets _ _)) ≤ limit
      rw [liveBuckets_liveBuckets _ (Nat.le_refl _)]
      exact hsum

/-- The history invariant holds along every run of calls at non-decreasing
times `t` with `window ≤ t < 2^32`, and every such run returns. -/
theorem Hist_run {window limit interval : Nat} (hl : limit < u32) (hi : 0 < interval)
    (times : List Int) :
    ∀ (s : Limiter) (A : List Int) (tl : Nat), Hist window limit interval s A tl →
      List.Chain (fun a b : Int => a ≤ b) (tl : Int) times →
      (∀ t ∈ times, (window : Int) ≤ t ∧ t < 4294967296) →
      ∃ s1 vs tl1, runCalls window limit interval s times = some (s1, vs)
        ∧ Hist window limit interval s1 (A ++ admittedTimes times vs) tl1 := by
  induction times with
  | nil =>
    intro s A tl h _ _
    refine ⟨s, [], tl, rfl, ?_⟩
    simpa [admittedTimes] using h
  | cons t rest ih =>
    intro s A tl h hch hr
    obtain ⟨hle, hch1⟩ := List.chain_cons.1 hch
    obtain ⟨hwt, ht⟩ := hr t (List.mem_cons_self _ _)
    have hcast : (unixTs t : Int) = t := unixTs_of_range (by omega) ht
    obtain ⟨s1, v, he, h1⟩ := Hist_step t h hl hi hwt ht hle
    obtain ⟨s2, vs, tl2, hrun, h2⟩ :=
      ih s1 _ (unixTs t) h1 (by rw [hcast]; exact hch1)
        (fun x hx => hr x (List.mem_cons_of_mem _ hx))
    refine ⟨s2, v :: vs, tl2, ?_, ?_⟩
    · rw [runCalls_cons_some rest he, hrun]
      rfl
    · rw [admittedTimes_cons, ← List.append_assoc]
      exact h2

theorem NewRestrictor_span_pos {windowSec limit numberOfBuckets : Nat} {pfx : String}
    {r : Restrictor} (hr : NewRestrictor windowSec limit numberOfBuckets pfx = some r)
    (hw : 1 ≤ windowSec) (hwu : windowSec < u32) :
    r.window = windowSec ∧ r.upperLimit = limit ∧ 0 < r.bucketSpan := by
  unfold NewRestrictor at hr
  by_cases hn : numberOfBuckets = 0
  · simp [hn] at hr
  · simp only [hn, if_false, Option.some.injEq] at hr
    subst hr
    refine ⟨rfl, rfl, ?_⟩
    show 0 < (if windowSec % numberOfBuckets > 0 then add32 (windowSec / numberOfBuckets) 1
      else windowSec / numberOfBuckets)
    by_cases hm : windowSec % numberOfBuckets > 0
    · rw [if_pos hm]
      have h2 : 2 ≤ numberOfBuckets := by
        by_contra hc
        have h1 : numberOfBuckets = 1 := by omega
        rw [h1, Nat.mod_one] at hm
        omega
      have hd : windowSec / numberOfBuckets ≤ windowSec / 2 := Nat.div_le_div_left h2 (by decide)
      have hq : windowSec / numberOfBuckets + 1 < u32 := by
        generalize windowSec / numberOfBuckets = q at hd
        unfold u32 at *
        omega
      unfold add32
      rw [Nat.mod_eq_of_lt hq]
      exact Nat.succ_pos _
    · rw [if_neg hm]
      have hdm := Nat.div_add_mod windowSec numberOfBuckets
      rcases Nat.eq_zero_or_pos (windowSec / numberOfBuckets) with h0 | hpos
      · rw [h0, Nat.mul_zero] at hdm
        generalize windowSec % numberOfBuckets = m at hm hdm
        omega
      · exact hpos

/-- C2 (the code at the failing input): the restrictor built by `NewRestrictor`
for a 10 s window, `limit = 1` and 2 buckets has `bucketSpan = 5`; the calls at
1000000004 and 1000000010 are both admitted (the first is counted in the bucket
1000000000, pruned at 1000000010), and both times lie in the window
`(1000000010 - 10, 1000000010]`: 2 admitted calls against `limit = 1`. -/
theorem C2_two_admitted_in_one_window :
    NewRestrictor 10 1 2 "p_" = some ⟨10, 1, 5, "p_"⟩
    ∧ runCalls 10 1 5 NewLimiter [1000000004, 1000000010]
      = some (⟨0, [(1000000010, 1)]⟩, [⟨false, 1, true, true⟩, ⟨false, 1, true, true⟩])
    ∧ countIn (1000000010 - 10) 1000000010
        (admittedTimes [1000000004, 1000000010]
          [⟨false, 1, true, true⟩, ⟨false, 1, true, true⟩]) = 2 := by
  decide

/-- What the buckets do guarantee: for every restrictor built by `NewRestrictor`
with a window of at least one second, and every sequence of `LimitReached`
calls on one limiter, starting empty, at non-decreasing times `t` with
`window ≤ t < 2^32` (no `uint32` wrap): all the calls return, and the number of
calls that returned `reached=false` and whose times lie in any interval
`(T - (window - bucketSpan + 1), T]` is at most `limit`. With `bucketSpan = 1`
the interval is the whole window `(T - window, T]`. -/
theorem admitted_per_interval_bound (windowSec limit numberOfBuckets : Nat) (pfx : String)
    (r : Restrictor) (times : List Int)
    (hr : NewRestrictor windowSec limit numberOfBuckets pfx = some r)
    (hw : 1 ≤ windowSec) (hwu : windowSec < u32) (hl : limit < u32)
    (hsorted : times.Chain' (fun a b : Int => a ≤ b))
    (hrange : ∀ t ∈ times, (r.window : Int) ≤ t ∧ t < 4294967296) :
    ∃ s vs, runCalls r.window r.upperLimit r.bucketSpan NewLimiter times = some (s, vs)
      ∧ ∀ T : Int,
          countIn (T - ((r.window : Int) - (r.bucketSpan : Int) + 1)) T (admittedTimes times vs)
            ≤ r.upperLimit := by
  obtain ⟨_, hlim, hspan⟩ := NewRestrictor_span_pos hr hw hwu
  have hch : List.Chain (fun a b : Int => a ≤ b) ((r.window : Nat) : Int) times := by
    cases times with
    | nil => exact List.Chain.nil
    | cons t rest => exact List.chain_cons.2 ⟨(hrange t (List.mem_cons_self _ _)).1, hsorted⟩
  obtain ⟨s, vs, _, hrun, hh⟩ :=
    Hist_run (by rw [hlim]; exact hl) hspan times NewLimiter [] r.window
      (Hist_init r.window r.upperLimit r.bucketSpan r.window) hch hrange
  refine ⟨s, vs, hrun, ?_⟩
  intro T
  have := hh.spread T
  simpa using this

/-- An instance of `admitted_per_interval_bound`: a 10 s window, `limit = 1`,
2 buckets (`bucketSpan = 5`), calls at 1000000004 and 1000000010. -/
theorem admitted_per_interval_bound_example :
    ∃ s vs, runCalls (⟨10, 1, 5, "p_"⟩ : Restrictor).window
        (⟨10, 1, 5, "p_"⟩ : Restrictor).upperLimit (⟨10, 1, 5, "p_"⟩ : Restrictor).bucketSpan
        NewLimiter [1000000004, 1000000010] = some (s, vs)
      ∧ ∀ T : Int,
          countIn (T - (((⟨10, 1, 5, "p_"⟩ : Restrictor).window : Int)
              - ((⟨10, 1, 5, "p_"⟩ : Restrictor).bucketSpan : Int) + 1)) T
            (admittedTimes [1000000004, 1000000010] vs)
            ≤ (⟨10, 1, 5, "p_"⟩ : Restrictor).upperLimit :=
  admitted_per_interval_bound 10 1 2 "p_" ⟨10, 1, 5, "p_"⟩ [1000000004, 1000000010]
    (by decide) (by decide) (by decide) (by decide) (by simp) (by simp)

/-! ## The restrictor: load, evaluate, persist, unlock -/

theorem lock_acquired_cond {σ : Type} {S : Store σ} {st : σ} {nano : Nat} {key : String}
    (hok : (lockResult S st nano key).2.1 = true)
    (herr : (lockResult S st nano key).2.2 = none) :
    (!(S.TryLock st key (toString nano)).2.1
      || (S.TryLock st key (toString nano)).2.2.isSome) = false := by
  unfold lockResult at hok herr
  simp [hok, herr]

/-- With the lock acquired and the evaluation returning `(lmt1, v)`, the call
loads, saves `lmt1` if `v.lmtChanged` (with `ttl = window` if
`v.expireChanged`, else the remaining seconds by the clock), unlocks, and
returns `(v.reached, v.count, nil)`. -/
theorem locked_call_returns {σ : Type} (r : Restrictor) (S : Store σ) (st : σ) (nano : Nat)
    (clock now : Int) (key : String) (lmt1 : Limiter) (v : Verdict)
    (hok : (lockResult S st nano key).2.1 = true)
    (herr : (lockResult S st nano key).2.2 = none)
    (hv : LimitReached (startLimiter r S st nano key) r.window r.upperLimit r.bucketSpan now
      = some (lmt1, v)) :
    (LimitReachedAtTimeWithCount r S st nano clock now key).ret
        = some (v.reached, v.count, none)
    ∧ (LimitReachedAtTimeWithCount r S st nano clock now key).calls
        = [StoreCall.tryLock key (toString nano), StoreCall.getLimiter (r.pfx ++ key)]
          ++ (if v.lmtChanged then
                [StoreCall.setLimiter (r.pfx ++ key) lmt1
                  (if v.expireChanged then (r.window : Int)
                    else remainingSeconds (loadResult r S st nano key).2.2.1 clock)]
              else [])
          ++ [StoreCall.unlock key (toString nano)] := by
  have hc := lock_acquired_cond hok herr
  unfold startLimiter loadResult lockResult at hv
  unfold loadResult lockResult
  simp only [LimitReachedAtTimeWithCount, hc, hv]
  cases hch : v.lmtChanged <;> simp

/-- With the lock acquired and the evaluation panicking, the call panics after
`TryLock` and `GetLimiter`: nothing is saved and `Unlock` is not called. -/
theorem locked_call_panics {σ : Type} (r : Restrictor) (S : Store σ) (st : σ) (nano : Nat)
    (clock now : Int) (key : String)
    (hok : (lockResult S st nano key).2.1 = true)
    (herr : (lockResult S st nano key).2.2 = none)
    (hv : LimitReached (startLimiter r S st nano key) r.window r.upperLimit r.bucketSpan now
      = none) :
    (LimitReachedAtTimeWithCount r S st nano clock now key).ret = none
    ∧ (LimitReachedAtTimeWithCount r S st nano clock now key).calls
        = [StoreCall.tryLock key (toString nano), StoreCall.getLimiter (r.pfx ++ key)] := by
  have hc := lock_acquired_cond hok herr
  unfold startLimiter loadResult lockResult at hv
  simp only [LimitReachedAtTimeWithCount, hc, hv]
  simp

/-- The flags of a returned call: an admitted call reports both `lmtChanged`
and `expireChanged`; `lmtChanged` is reported exactly on the scan branch. -/
theorem LimitReached_flags {lmt lmt1 : Limiter} {window limit interval : Nat} {now : Int}
    {v : Verdict} (h : LimitReached lmt window limit interval now = some (lmt1, v)) :
    (v.reached = false → v.lmtChanged = true ∧ v.expireChanged = true)
    ∧ (v.lmtChanged = true ↔ (limit ≠ 0 ∧ ¬ unixTs now < lmt.FullUntil))
    ∧ (v.expireChanged = true ↔ v.reached = false) := by
  by_cases hl : limit = 0
  · subst hl
    simp only [LimitReached, if_true, Option.some.injEq, Prod.mk.injEq] at h
    obtain ⟨_, rfl⟩ := h
    simp
  · by_cases hf : unixTs now < lmt.FullUntil
    · simp only [LimitReached, hl, hf, if_true, if_false, Option.some.injEq,
        Prod.mk.injEq] at h
      obtain ⟨_, rfl⟩ := h
      simp [hf]
    · rw [LimitReached_eq_scanBranch hl hf] at h
      by_cases hlt : sumCounts (liveBuckets (sub32 (unixTs now) window) lmt.Buckets) % u32
          < limit
      · by_cases hi : interval = 0
        · simp [scanBranch, pruneScan_total _ _ _ _ (show 0 < u32 by decide), hlt, hi] at h
        · rw [scanBranch_admitted hi hlt] at h
          simp only [Option.some.injEq, Prod.mk.injEq] at h
          obtain ⟨_, rfl⟩ := h
          simp [hl, hf]
      · rw [scanBranch_rejected (by omega)] at h
        simp only [Option.some.injEq, Prod.mk.injEq] at h
        obtain ⟨_, rfl⟩ := h
        simp [hl, hf]

/-! ## The restrictor: what is saved and with which TTL -/

/-- C11 fails as stated: with `window = 60`, `limit = 3`, `bucketSpan = 1` on the
in-memory store, the first call at `t = 1000` is admitted and saved with
`ttl = 60` (expiry 1060); the second call at `t = 1010`, before that expiry, is
admitted too and is saved with `ttl = 60` again, not with the remaining
`1060 - 1010 = 50` seconds. -/
theorem C11_ttl_policy_counterexample :
    (LimitReachedAtTimeWithCount ⟨60, 3, 1, "p_"⟩ memStore ⟨1000000000000, []⟩ 5
        1000000000000 1000 "k").ret = some (false, 1, none)
    ∧ savedTtls (LimitReachedAtTimeWithCount ⟨60, 3, 1, "p_"⟩ memStore ⟨1000000000000, []⟩ 5
        1000000000000 1000 "k").calls = [60]
    ∧ (LimitReachedAtTimeWithCount ⟨60, 3, 1, "p_"⟩ memStore ⟨1000000000000, []⟩ 5
        1000000000000 1000 "k").store
        = ⟨1000000000000, [("p_k", ⟨0, [(1000, 1)]⟩, 1060000000000)]⟩
    ∧ (LimitReachedAtTimeWithCount ⟨60, 3, 1, "p_"⟩ memStore
        ⟨1010000000000, [("p_k", ⟨0, [(1000, 1)]⟩, 1060000000000)]⟩ 7
        1010000000000 1010 "k").ret = some (false, 2, none)
    ∧ savedTtls (LimitReachedAtTimeWithCount ⟨60, 3, 1, "p_"⟩ memStore
        ⟨1010000000000, [("p_k", ⟨0, [(1000, 1)]⟩, 1060000000000)]⟩ 7
        1010000000000 1010 "k").calls = [60]
    ∧ remainingSeconds 1060000000000 1010000000000 = 50 := by
  decide

/-- C11 (as amended): for a key whose `TryLock` succeeds, every admitted call
(`reached=false`), the first on an empty or absent limiter and every later one
alike, calls `Store.SetLimiter` exactly once, at `prefix+key`, with
`ttl = window` seconds, between `GetLimiter` and `Unlock`. -/
theorem C11_admitted_call_saves_with_window_ttl {σ : Type} (r : Restrictor) (S : Store σ)
    (st : σ) (nano : Nat) (clock now : Int) (key : String) (lmt1 : Limiter) (v : Verdict)
    (hok : (lockResult S st nano key).2.1 = true)
    (herr : (lockResult S st nano key).2.2 = none)
    (hv : LimitReached (startLimiter r S st nano key) r.window r.upperLimit r.bucketSpan now
      = some (lmt1, v))
    (hadm : v.reached = false) :
    (LimitReachedAtTimeWithCount r S st nano clock now key).calls
      = [StoreCall.tryLock key (toString nano), StoreCall.getLimiter (r.pfx ++ key),
          StoreCall.setLimiter (r.pfx ++ key) lmt1 (r.window : Int),
          StoreCall.unlock key (toString nano)] := by
  obtain ⟨hflags, _, _⟩ := LimitReached_flags hv
  obtain ⟨h1, h2⟩ := hflags hadm
  rw [(locked_call_returns r S st nano clock now key lmt1 v hok herr hv).2]
  simp [h1, h2]

/-- Witness of C11 (as amended): the second admitted call of the counterexample. -/
theorem C11_admitted_call_saves_with_window_ttl_witness :
    (LimitReachedAtTimeWithCount ⟨60, 3, 1, "p_"⟩ memStore
        ⟨1010000000000, [("p_k", ⟨0, [(1000, 1)]⟩, 1060000000000)]⟩ 7
        1010000000000 1010 "k").calls
      = [StoreCall.tryLock "k" (toString 7), StoreCall.getLimiter ("p_" ++ "k"),
          StoreCall.setLimiter ("p_" ++ "k") ⟨0, [(1000, 1), (1010, 1)]⟩ ((60 : Nat) : Int),
          StoreCall.unlock "k" (toString 7)] :=
  C11_admitted_call_saves_with_window_ttl ⟨60, 3, 1, "p_"⟩ memStore
    ⟨1010000000000, [("p_k", ⟨0, [(1000, 1)]⟩, 1060000000000)]⟩ 7 1010000000000 1010 "k"
    ⟨0, [(1000, 1), (1010, 1)]⟩ ⟨false, 2, true, true⟩ (by decide) (by decide) (by decide)
    (by decide)

/-- C17 fails as stated: `window = 60`, `limit = 1`, a saved limiter with the
bucket `1000 ↦ 1` and expiry 1060; the call with decision time `now = 1010`,
made when the clock reads 1020, is rejected by the scan and saved with
`ttl = 1060 - 1020 = 40`, not `currentExpiry - now = 1060 - 1010 = 50`. -/
theorem C17_ttl_uses_clock_counterexample :
    (LimitReachedAtTimeWithCount ⟨60, 1, 1, "p_"⟩ memStore
        ⟨1020000000000, [("p_k", ⟨0, [(1000, 1)]⟩, 1060000000000)]⟩ 5
        1020000000000 1010 "k").ret = some (true, 1, none)
    ∧ savedTtls (LimitReachedAtTimeWithCount ⟨60, 1, 1, "p_"⟩ memStore
        ⟨1020000000000, [("p_k", ⟨0, [(1000, 1)]⟩, 1060000000000)]⟩ 5
        1020000000000 1010 "k").calls = [40]
    ∧ savedTtls (LimitReachedAtTimeWithCount ⟨60, 1, 1, "p_"⟩ memStore
        ⟨1020000000000, [("p_k", ⟨0, [(1000, 1)]⟩, 1060000000000)]⟩ 5
        1020000000000 1010 "k").calls ≠ [1060 - 1010] := by
  decide

/-- C17 (as amended): in every `LimitReachedAtTimeWithCount(now, key)` call whose
`TryLock` succeeds and whose evaluation returns `(lmt1, v)`, the store calls
are `TryLock`, `GetLimiter`, then `SetLimiter` exactly once at `prefix+key` if
`v.lmtChanged` and not at all otherwise, then `Unlock`; `lmtChanged` is reported
exactly when the call is on neither the `limit = 0` path nor the fast path; and
the `ttl` argument is `window` seconds when `v.expireChanged`, otherwise
`int(expireTime.Sub(time.Now()).Seconds())`: the expiry returned by `GetLimiter`
minus a fresh clock reading (not the decision time `now`), saturated as a
`Duration`, in `float64` seconds, truncated toward zero. -/
theorem C17_conditional_persist {σ : Type} (r : Restrictor) (S : Store σ) (st : σ)
    (nano : Nat) (clock now : Int) (key : String) (lmt1 : Limiter) (v : Verdict)
    (hok : (lockResult S st nano key).2.1 = true)
    (herr : (lockResult S st nano key).2.2 = none)
    (hv : LimitReached (startLimiter r S st nano key) r.window r.upperLimit r.bucketSpan now
      = some (lmt1, v)) :
    (LimitReachedAtTimeWithCount r S st nano clock now key).calls
        = [StoreCall.tryLock key (toString nano), StoreCall.getLimiter (r.pfx ++ key)]
          ++ (if v.lmtChanged then
                [StoreCall.setLimiter (r.pfx ++ key) lmt1
                  (if v.expireChanged then (r.window : Int)
                    else remainingSeconds (loadResult r S st nano key).2.2.1 clock)]
              else [])
          ++ [StoreCall.unlock key (toString nano)]
    ∧ (v.lmtChanged = true ↔
        (r.upperLimit ≠ 0 ∧ ¬ unixTs now < (startLimiter r S st nano key).FullUntil)) :=
  ⟨(locked_call_returns r S st nano clock now key lmt1 v hok herr hv).2,
    (LimitReached_flags hv).2.1⟩

/-- Witness of C17 (as amended): the rejected call of the counterexample. -/
theorem C17_conditional_persist_witness :
    (LimitReachedAtTimeWithCount ⟨60, 1, 1, "p_"⟩ memStore
        ⟨1020000000000, [("p_k", ⟨0, [(1000, 1)]⟩, 1060000000000)]⟩ 5
        1020000000000 1010 "k").calls
        = [StoreCall.tryLock "k" (toString 5),
            StoreCall.getLimiter ((⟨60, 1, 1, "p_"⟩ : Restrictor).pfx ++ "k")]
          ++ (if (⟨true, 1, true, false⟩ : Verdict).lmtChanged then
                [StoreCall.setLimiter ((⟨60, 1, 1, "p_"⟩ : Restrictor).pfx ++ "k")
                  ⟨1060, [(1000, 1)]⟩
                  (if (⟨true, 1, true, false⟩ : Verdict).expireChanged then
                      (((⟨60, 1, 1, "p_"⟩ : Restrictor).window : Nat) : Int)
                    else remainingSeconds (loadResult ⟨60, 1, 1, "p_"⟩ memStore
                      ⟨1020000000000, [("p_k", ⟨0, [(1000, 1)]⟩, 1060000000000)]⟩ 5
                      "k").2.2.1 1020000000000)]
              else [])
          ++ [StoreCall.unlock "k" (toString 5)]
    ∧ ((⟨true, 1, true, false⟩ : Verdict).lmtChanged = true ↔
        ((⟨60, 1, 1, "p_"⟩ : Restrictor).upperLimit ≠ 0
          ∧ ¬ unixTs 1010 < (startLimiter ⟨60, 1, 1, "p_"⟩ memStore
              ⟨1020000000000, [("p_k", ⟨0, [(1000, 1)]⟩, 1060000000000)]⟩ 5
              "k").FullUntil)) :=
  C17_conditional_persist ⟨60, 1, 1, "p_"⟩ memStore
    ⟨1020000000000, [("p_k", ⟨0, [(1000, 1)]⟩, 1060000000000)]⟩ 5 1020000000000 1010 "k"
    ⟨1060, [(1000, 1)]⟩ ⟨true, 1, true, false⟩ (by decide) (by decide) (by decide)

/-! ## The restrictor: unlock, errors, `GetCount`, construction -/

/-- On every path on which a locked call returns, `Unlock` is called exactly
once, with the key and token of `TryLock`, as the last store call. -/
theorem unlock_once_when_call_returns {σ : Type} (r : Restrictor) (S : Store σ) (st : σ)
    (nano : Nat) (clock now : Int) (key : String) (lmt1 : Limiter) (v : Verdict)
    (hok : (lockResult S st nano key).2.1 = true)
    (herr : (lockResult S st nano key).2.2 = none)
    (hv : LimitReached (startLimiter r S st nano key) r.window r.upperLimit r.bucketSpan now
      = some (lmt1, v)) :
    unlockCount (LimitReachedAtTimeWithCount r S st nano clock now key).calls = 1
    ∧ (LimitReachedAtTimeWithCount r S st nano clock now key).calls.getLast?
        = some (StoreCall.unlock key (toString nano)) := by
  rw [(locked_call_returns r S st nano clock now key lmt1 v hok herr hv).2]
  cases v.lmtChanged <;> simp [unlockCount]

/-- C12 (the code at the failing input): the restrictor built for a window of
500 ms has `window = 0` and `bucketSpan = 0`; with `limit = 1`, on the in-memory
store, `TryLock` succeeds, `GetLimiter` finds nothing, and `LimitReached` panics
in `ts % interval`: the call does not return, its store calls are `TryLock` and
`GetLimiter` only, and `Unlock` is never called. -/
theorem C12_lock_leaks_on_panic :
    durationSec 4294967295 500000000 = 0
    ∧ NewRestrictor 0 1 10 "p_" = some ⟨0, 1, 0, "p_"⟩
    ∧ (memStore.TryLock ⟨1000000000000, []⟩ "k" (toString 5)).2 = (true, none)
    ∧ (LimitReachedAtTimeWithCount ⟨0, 1, 0, "p_"⟩ memStore ⟨1000000000000, []⟩ 5
        1000000000000 1000 "k").ret = none
    ∧ (LimitReachedAtTimeWithCount ⟨0, 1, 0, "p_"⟩ memStore ⟨1000000000000, []⟩ 5
        1000000000000 1000 "k").calls
        = [StoreCall.tryLock "k" "5", StoreCall.getLimiter "p_k"]
    ∧ unlockCount (LimitReachedAtTimeWithCount ⟨0, 1, 0, "p_"⟩ memStore
        ⟨1000000000000, []⟩ 5 1000000000000 1000 "k").calls = 0 := by
  decide

/-- C13 fails as stated: on the store whose `SetLimiter` fails, the first call
is admitted, its save fails (the store counts one failed save), and the call
returns `(false, 1)` with a `nil` error. -/
theorem C13_save_failure_not_surfaced :
    (LimitReachedAtTimeWithCount ⟨60, 3, 1, "p_"⟩ lossyStore 0 5 1000000000000 1000 "k").ret
      = some (false, 1, none)
    ∧ (LimitReachedAtTimeWithCount ⟨60, 3, 1, "p_"⟩ lossyStore 0 5 1000000000000 1000
        "k").store = 1 := by
  decide

/-- C13 (as amended): in every `LimitReachedAtTimeWithCount` call in which the
lock is acquired, whatever the store's `GetLimiter`, `SetLimiter` and `Unlock`
do, the call returns the decision `(reached, count)` computed by `LimitReached`
with a `nil` error (and panics exactly when `LimitReached` panics): the load
has no error result and the results of save and unlock are discarded. -/
theorem C13_error_is_nil_after_lock {σ : Type} (r : Restrictor) (S : Store σ) (st : σ)
    (nano : Nat) (clock now : Int) (key : String)
    (hok : (lockResult S st nano key).2.1 = true)
    (herr : (lockResult S st nano key).2.2 = none) :
    (LimitReachedAtTimeWithCount r S st nano clock now key).ret
      = (LimitReached (startLimiter r S st nano key) r.window r.upperLimit r.bucketSpan
          now).map (fun p => (p.2.reached, p.2.count, none)) := by
  cases hv : LimitReached (startLimiter r S st nano key) r.window r.upperLimit r.bucketSpan
      now with
  | none => exact (locked_call_panics r S st nano clock now key hok herr hv).1
  | some p =>
    obtain ⟨lmt1, v⟩ := p
    exact (locked_call_returns r S st nano clock now key lmt1 v hok herr hv).1

/-- Witness of C13 (as amended): the store whose `SetLimiter` fails. -/
theorem C13_error_is_nil_after_lock_witness :
    (LimitReachedAtTimeWithCount ⟨60, 3, 1, "p_"⟩ lossyStore 0 5 1000000000000 1000 "k").ret
      = (LimitReached (startLimiter ⟨60, 3, 1, "p_"⟩ lossyStore 0 5 "k")
          (⟨60, 3, 1, "p_"⟩ : Restrictor).window (⟨60, 3, 1, "p_"⟩ : Restrictor).upperLimit
          (⟨60, 3, 1, "p_"⟩ : Restrictor).bucketSpan 1000).map
          (fun p => (p.2.reached, p.2.count, none)) :=
  C13_error_is_nil_after_lock ⟨60, 3, 1, "p_"⟩ lossyStore 0 5 1000000000000 1000 "k"
    (by decide) (by decide)

/-- C14 fails as stated: with a configured window of 60 s, the requested window
60.5 s is strictly greater, but `uint32(window.Seconds())` is 60: no
configuration error is returned and the store is accessed (`TryLock` is
called, here on the store whose lock is busy). -/
theorem C14_subsecond_excess_counterexample :
    (60 : Int) * 1000000000 < 60500000000
    ∧ durationSec 4294967295 60500000000 = 60
    ∧ (Restrictor.GetCount ⟨60, 3, 1, "p_"⟩ busyStore 0 5 1000 4294967295 "k"
        60500000000).ret
        = (0, none)
    ∧ (Restrictor.GetCount ⟨60, 3, 1, "p_"⟩ busyStore 0 5 1000 4294967295 "k"
        60500000000).calls
        = [StoreCall.tryLock "k" "5"] := by
  decide

/-- C14 (as amended): for every key and requested window, if the value
`uint32(window.Seconds())` of the requested window (its `float64` seconds,
truncated; whatever the implementation yields when they do not fit a `uint32`)
exceeds the configured window, `Restrictor.GetCount` returns count 0 with the
configuration error and calls no store method, leaving the store as it was;
otherwise the returned error is `nil`. -/
theorem C14_count_rejects_oversized_window {σ : Type} (r : Restrictor) (S : Store σ)
    (st : σ) (nano : Nat) (clockNow : Int) (other : Nat) (key : String) (window : Int) :
    if durationSec other window > r.window then
      Restrictor.GetCount r S st nano clockNow other key window
        = ⟨st, [], (0, some "window value can't be bigger than restrictor window")⟩
    else (Restrictor.GetCount r S st nano clockNow other key window).ret.2 = none := by
  by_cases h : durationSec other window > r.window
  · simp only [h, if_true, Restrictor.GetCount]
  · simp only [h, if_false, Restrictor.GetCount]
    cases hc : (!(S.TryLock st key (toString nano)).2.1
      || (S.TryLock st key (toString nano)).2.2.isSome) <;> simp

/-- C15 (the code at the failing input): for a window of 500 ms and 10 buckets,
`uint32(window.Seconds())` is 0 and `NewRestrictor` sets `bucketSpan = 0`, not at
least 1; the first `LimitReached` call with that configuration and `limit = 1`
panics in `ts % interval`. -/
theorem C15_bucket_span_zero :
    durationSec 4294967295 500000000 = 0
    ∧ NewRestrictor (durationSec 4294967295 500000000) 1 10 "p_" = some ⟨0, 1, 0, "p_"⟩
    ∧ LimitReached NewLimiter 0 1 0 1000 = none := by
  decide

/-- C19 (the code at the failing input): on the store whose `TryLock` returns
the error `"lock error"`, `Restrictor.GetCount` with a requested window of 10 s
(configured window 60 s) returns `(0, nil)`: the error is dropped. The only
store call is `TryLock`. The sibling `LimitReachedAtTimeWithCount` returns the
error on the same store. -/
theorem C19_getCount_drops_lock_error :
    (errStore.TryLock 0 "k" (toString 5)).2 = (false, some "lock error")
    ∧ (Restrictor.GetCount ⟨60, 3, 1, "p_"⟩ errStore 0 5 1000 4294967295 "k" 10000000000).ret
        = (0, none)
    ∧ (Restrictor.GetCount ⟨60, 3, 1, "p_"⟩ errStore 0 5 1000 4294967295 "k"
        10000000000).calls
        = [StoreCall.tryLock "k" "5"]
    ∧ (LimitReachedAtTimeWithCount ⟨60, 3, 1, "p_"⟩ errStore 0 5 1000000000000 1000 "k").ret
        = some (true, 0, some "lock error") := by
  decide

/-! ## The grid of buckets -/

theorem keys_bucketIncr (k : Nat) (l : List (Nat × Nat)) :
    (bucketIncr k l).map Prod.fst
      = if k ∈ l.map Prod.fst then l.map Prod.fst else l.map Prod.fst ++ [k] := by
  induction l with
  | nil => simp [bucketIncr]
  | cons a rest ih =>
    obtain ⟨t, c⟩ := a
    by_cases h : t = k
    · subst h
      simp [bucketIncr]
    · have h' : ¬ k = t := fun e => h e.symm
      simp only [bucketIncr, h, if_false, List.map_cons, ih, List.mem_cons, h', false_or]
      split <;> simp

theorem nodup_keys_bucketIncr {k : Nat} {l : List (Nat × Nat)}
    (h : (l.map Prod.fst).Nodup) : ((bucketIncr k l).map Prod.fst).Nodup := by
  rw [keys_bucketIncr]
  split
  · exact h
  · rename_i hk
    rw [List.nodup_append]
    refine ⟨h, List.nodup_singleton _, ?_⟩
    intro x hx hx1
    rw [List.mem_singleton] at hx1
    subst hx1
    exact hk hx

theorem nodup_keys_liveBuckets {b : Nat} {l : List (Nat × Nat)}
    (h : (l.map Prod.fst).Nodup) : ((liveBuckets b l).map Prod.fst).Nodup :=
  List.Nodup.sublist (List.Sublist.map _ (List.filter_sublist _)) h

theorem count_pos_bucketIncr {k : Nat} {l : List (Nat × Nat)}
    (hp : ∀ e ∈ l, 1 ≤ e.2) (hc : ∀ e ∈ l, e.2 + 1 < u32) :
    ∀ e ∈ bucketIncr k l, 1 ≤ e.2 := by
  induction l with
  | nil =>
    intro e he
    simp only [bucketIncr, List.mem_singleton] at he
    rw [he]
  | cons a rest ih =>
    obtain ⟨t, c⟩ := a
    intro e he
    by_cases h : t = k
    · simp only [bucketIncr, h, if_true] at he
      rcases List.mem_cons.1 he with rfl | h1
      · have := hc (t, c) (List.mem_cons_self _ _)
        show 1 ≤ add32 c 1
        unfold add32
        rw [Nat.mod_eq_of_lt this]
        omega
      · exact hp e (List.mem_cons_of_mem _ h1)
    · simp only [bucketIncr, h, if_false] at he
      rcases List.mem_cons.1 he with rfl | h1
      · exact hp _ (List.mem_cons_self _ _)
      · exact ih (fun x hx => hp x (List.mem_cons_of_mem _ hx))
          (fun x hx => hc x (List.mem_cons_of_mem _ hx)) e h1

theorem length_le_of_lt {l : List Nat} {n : Nat} (hnd : l.Nodup) (hlt : ∀ x ∈ l, x < n) :
    l.length ≤ n := by
  have hsub : l.toFinset ⊆ Finset.range n := by
    intro x hx
    rw [List.mem_toFinset] at hx
    exact Finset.mem_range.2 (hlt x hx)
  have hcard := Finset.card_le_card hsub
  rw [List.toFinset_card_of_nodup hnd, Finset.card_range] at hcard
  exact hcard

/-- At most `n` distinct multiples of `span` fit in a window of length
`window ≤ span * n`. -/
theorem length_le_of_grid {window span n a : Nat} {l : List (Nat × Nat)} (hs : 0 < span)
    (hwn : window ≤ span * n) (hnd : (l.map Prod.fst).Nodup)
    (hal : ∀ e ∈ l, e.1 % span = 0) (hin : ∀ e ∈ l, e.1 ≤ a ∧ a < e.1 + window) :
    l.length ≤ n := by
  have hkey : ∀ k ∈ l.map Prod.fst, k % span = 0 ∧ k ≤ a ∧ a < k + window := by
    intro k hk
    obtain ⟨e, he, rfl⟩ := List.mem_map.1 hk
    exact ⟨hal e he, hin e he⟩
  have hmul : ∀ k ∈ l.map Prod.fst, span * (k / span) = k := by
    intro k hk
    have h1 := Nat.div_add_mod k span
    have h2 := (hkey k hk).1
    omega
  have hdiv : ∀ k ∈ l.map Prod.fst, k / span ≤ a / span ∧ a / span < k / span + n := by
    intro k hk
    obtain ⟨_, h2, h3⟩ := hkey k hk
    refine ⟨Nat.div_le_div_right h2, ?_⟩
    rw [Nat.div_lt_iff_lt_mul hs, Nat.add_mul, Nat.mul_comm (k / span) span, hmul k hk,
      Nat.mul_comm n span]
    omega
  have hnd2 : ((l.map Prod.fst).map (fun k => a / span - k / span)).Nodup := by
    apply List.Nodup.map_on _ hnd
    intro x hx y hy hxy
    have hx1 := hdiv x hx
    have hy1 := hdiv y hy
    have hx2 := hmul x hx
    have hy2 := hmul y hy
    have : x / span = y / span := by omega
    rw [← hx2, ← hy2, this]
  have hlen := length_le_of_lt hnd2 (n := n) (by
    intro x hx
    obtain ⟨k, hk, rfl⟩ := List.mem_map.1 hx
    have := hdiv k hk
    omega)
  simpa using hlen

theorem Grid_init (window span tl : Nat) : Grid window span NewLimiter tl := by
  refine ⟨?_, ?_, ⟨tl, Nat.le_refl _, ?_⟩, ?_⟩
  · simp [NewLimiter]
  · intro e he
    cases he
  · intro e he
    cases he
  · intro e he
    cases he

/-- Every returned call with `0 < span ≤ window` keeps the grid invariant. -/
theorem Grid_step {window limit span : Nat} {s s1 : Limiter} {tl : Nat} {v : Verdict}
    (now : Int) (hI : Inv window limit s tl) (hG : Grid window span s tl)
    (hw : window < u32) (hl : limit < u32) (hi : 0 < span) (hsw : span ≤ window)
    (htl : tl ≤ unixTs now)
    (hstep : LimitReached s window limit span now = some (s1, v)) :
    Grid window span s1 (unixTs now) := by
  have hts := unixTs_lt now
  obtain ⟨hsum, hkeys⟩ := Inv_scan_bound hI hw htl hts
  obtain ⟨a, ha, hin⟩ := hG.within
  have hlive_in : ∀ e ∈ liveBuckets (sub32 (unixTs now) window) s.Buckets,
      e.1 ≤ unixTs now ∧ unixTs now < e.1 + window := by
    intro e he
    obtain ⟨hm, hb⟩ := mem_liveBuckets.1 he
    refine ⟨hkeys e he, ?_⟩
    by_cases hwt : window ≤ unixTs now
    · rw [sub32_of_le hwt hts] at hb
      omega
    · have := hI.keys_le e hm
      rw [sub32_of_lt (by omega) hw] at hb
      omega
  rcases LimitReached_cases s window limit span now hi with
    ⟨_, he⟩ | ⟨_, _, hlt, he⟩ | ⟨_, _, _, he⟩
  · rw [he] at hstep
    simp only [Option.some.injEq, Prod.mk.injEq] at hstep
    rw [← hstep.1]
    exact ⟨hG.nodup, hG.aligned, ⟨a, by omega, hin⟩, hG.pos⟩
  · rw [he] at hstep
    simp only [Option.some.injEq, Prod.mk.injEq] at hstep
    rw [← hstep.1]
    rw [Nat.mod_eq_of_lt (by omega)] at hlt
    have hmod : unixTs now % span < span := Nat.mod_lt _ hi
    have hmle : unixTs now % span ≤ unixTs now := Nat.mod_le _ _
    refine ⟨nodup_keys_bucketIncr (nodup_keys_liveBuckets hG.nodup), ?_,
      ⟨unixTs now, Nat.le_refl _, ?_⟩, ?_⟩
    · intro e hm
      rcases mem_bucketIncr hm with h1 | h1
      · rw [h1]
        exact Nat.sub_mod_eq_zero_of_mod_eq (Nat.mod_mod _ _).symm
      · exact hG.aligned e (mem_liveBuckets.1 h1).1
    · intro e hm
      rcases mem_bucketIncr hm with h1 | h1
      · rw [h1]
        omega
      · exact hlive_in e h1
    · apply count_pos_bucketIncr
      · intro e hm
        exact hG.pos e (mem_liveBuckets.1 hm).1
      · intro e hm
        have := mem_le_sumCounts hm
        omega
  · rw [he] at hstep
    simp only [Option.some.injEq, Prod.mk.injEq] at hstep
    rw [← hstep.1]
    refine ⟨nodup_keys_liveBuckets hG.nodup, ?_, ⟨unixTs now, Nat.le_refl _, hlive_in⟩, ?_⟩
    · intro e hm
      exact hG.aligned e (mem_liveBuckets.1 hm).1
    · intro e hm
      exact hG.pos e (mem_liveBuckets.1 hm).1

/-- Both invariants hold along every run of calls at non-decreasing times that
fit a `uint32`, and every such run returns. -/
theorem Grid_run {window limit span : Nat} (hw : window < u32) (hl : limit < u32)
    (hi : 0 < span) (hsw : span ≤ window) (times : List Int) :
    ∀ (s : Limiter) (tl : Nat), Inv window limit s tl → Grid window span s tl →
      List.Chain (fun a b : Int => a ≤ b) (tl : Int) times →
      (∀ t ∈ times, t < 4294967296) →
      ∃ s1 vs tl1, runCalls window limit span s times = some (s1, vs)
        ∧ Inv window limit s1 tl1 ∧ Grid window span s1 tl1
        ∧ (tl1 = tl ∨ ∃ t ∈ times, tl1 = unixTs t) := by
  induction times with
  | nil =>
    intro s tl h hg _ _
    exact ⟨s, [], tl, rfl, h, hg, Or.inl rfl⟩
  | cons t rest ih =>
    intro s tl h hg hch hr
    obtain ⟨hle, hch1⟩ := List.chain_cons.1 hch
    have ht := hr t (List.mem_cons_self _ _)
    have hcast : (unixTs t : Int) = t := unixTs_of_range (by omega) ht
    obtain ⟨s1, v, he, h1⟩ := Inv_step t h hw hl hi (by omega)
    have hg1 := Grid_step t h hg hw hl hi hsw (by omega) he
    obtain ⟨s2, vs, tl2, hrun, h2, hg2, hlast⟩ :=
      ih s1 (unixTs t) h1 hg1 (by rw [hcast]; exact hch1)
        (fun x hx => hr x (List.mem_cons_of_mem _ hx))
    refine ⟨s2, v :: vs, tl2, ?_, h2, hg2, ?_⟩
    · rw [runCalls_cons_some rest he, hrun]
      rfl
    · right
      rcases hlast with h3 | ⟨x, hx, h3⟩
      · exact ⟨t, List.mem_cons_self _ _, h3⟩
      · exact ⟨x, List.mem_cons_of_mem _ hx, h3⟩

/-- The bucket span of `NewRestrictor` is the ceiling of
`windowSec / numberOfBuckets`, and at most the window when the window is at
least one second. -/
theorem NewRestrictor_span_bounds {windowSec limit numberOfBuckets : Nat} {pfx : String}
    {r : Restrictor} (hr : NewRestrictor windowSec limit numberOfBuckets pfx = some r)
    (hw : 1 ≤ windowSec) (hwu : windowSec < u32) :
    r.window = windowSec ∧ r.upperLimit = limit ∧ 0 < r.bucketSpan
    ∧ r.bucketSpan ≤ windowSec ∧ windowSec ≤ r.bucketSpan * numberOfBuckets
    ∧ (r.bucketSpan - 1) * numberOfBuckets < windowSec := by
  obtain ⟨h1, h2, h3⟩ := NewRestrictor_span_pos hr hw hwu
  refine ⟨h1, h2, h3, ?_⟩
  unfold NewRestrictor at hr
  by_cases hn : numberOfBuckets = 0
  · simp [hn] at hr
  · simp only [hn, if_false, Option.some.injEq] at hr
    subst hr
    show (if windowSec % numberOfBuckets > 0 then add32 (windowSec / numberOfBuckets) 1
        else windowSec / numberOfBuckets) ≤ windowSec
      ∧ windowSec ≤ (if windowSec % numberOfBuckets > 0 then
          add32 (windowSec / numberOfBuckets) 1 else windowSec / numberOfBuckets)
          * numberOfBuckets
      ∧ ((if windowSec % numberOfBuckets > 0 then add32 (windowSec / numberOfBuckets) 1
          else windowSec / numberOfBuckets) - 1) * numberOfBuckets < windowSec
    have hdm := Nat.div_add_mod windowSec numberOfBuckets
    have hml : windowSec % numberOfBuckets < numberOfBuckets :=
      Nat.mod_lt _ (Nat.pos_of_ne_zero hn)
    rw [Nat.mul_comm] at hdm
    by_cases hm : windowSec % numberOfBuckets > 0
    · have h2 : 2 ≤ numberOfBuckets := by
        by_contra hc
        have h1 : numberOfBuckets = 1 := by omega
        rw [h1, Nat.mod_one] at hm
        omega
      have hd : windowSec / numberOfBuckets ≤ windowSec / 2 := Nat.div_le_div_left h2 (by decide)
      have hq : add32 (windowSec / numberOfBuckets) 1 = windowSec / numberOfBuckets + 1 := by
        unfold add32
        apply Nat.mod_eq_of_lt
        generalize windowSec / numberOfBuckets = q at hd
        unfold u32 at *
        omega
      simp only [hm, if_true, hq, Nat.add_sub_cancel, Nat.add_mul, Nat.one_mul]
      generalize windowSec / numberOfBuckets = q at hd hdm ⊢
      generalize windowSec % numberOfBuckets = m at hm hml hdm
      generalize q * numberOfBuckets = p at hdm ⊢
      omega
    · simp only [hm, if_false]
      have hm0 : windowSec % numberOfBuckets = 0 := by omega
      rw [hm0, Nat.add_zero] at hdm
      have hqle : windowSec / numberOfBuckets ≤ windowSec := Nat.div_le_self _ _
      have hqpos : 0 < windowSec / numberOfBuckets := by
        rcases Nat.eq_zero_or_pos (windowSec / numberOfBuckets) with h0 | hp
        · rw [h0, Nat.zero_mul] at hdm
          omega
        · exact hp
      refine ⟨hqle, by omega, ?_⟩
      have hlt : (windowSec / numberOfBuckets - 1) * numberOfBuckets
          < windowSec / numberOfBuckets * numberOfBuckets := by
        apply Nat.mul_lt_mul_of_lt_of_le (by omega) (Nat.le_refl _) (Nat.pos_of_ne_zero hn)
      omega

/-! ## Bounded memory -/

/-- Bounded memory while the Unix time fits a `uint32`: for a restrictor built
by `NewRestrictor` with a window of at least one second and
`numberOfBuckets = n ≥ 1` (so `bucketSpan = ceil(window / n)`), every run of
`LimitReached` calls on an empty limiter with that configuration at
non-decreasing times `0 ≤ t < 2^32` returns, and the limiter
it reaches holds at most `n` buckets, at pairwise distinct timestamps, each a
multiple of `bucketSpan`. -/
theorem bounded_memory_in_range (windowSec limit n : Nat) (pfx : String) (r : Restrictor)
    (times : List Int) (hr : NewRestrictor windowSec limit n pfx = some r)
    (hw : 1 ≤ windowSec) (hwu : windowSec < u32) (hl : limit < u32)
    (hsorted : times.Chain' (fun a b : Int => a ≤ b))
    (hrange : ∀ t ∈ times, 0 ≤ t ∧ t < 4294967296) :
    ∃ s vs, runCalls r.window r.upperLimit r.bucketSpan NewLimiter times = some (s, vs)
      ∧ s.Buckets.length ≤ n
      ∧ (s.Buckets.map Prod.fst).Nodup
      ∧ ∀ e ∈ s.Buckets, e.1 % r.bucketSpan = 0 := by
  obtain ⟨hwin, hlim, hspan, hsw, hwn, _⟩ := NewRestrictor_span_bounds hr hw hwu
  obtain ⟨s, vs, tl, hrun, _, hg, _⟩ :=
    @Grid_run r.window r.upperLimit r.bucketSpan (by rw [hwin]; exact hwu)
      (by rw [hlim]; exact hl) hspan (by rw [hwin]; exact hsw) times NewLimiter 0
      (Inv_init _ _) (Grid_init _ _ _)
      (chain_of_chain' hsorted (fun t ht => (hrange t ht).1))
      (fun t ht => (hrange t ht).2)
  obtain ⟨a, _, hin⟩ := hg.within
  refine ⟨s, vs, hrun, ?_, hg.nodup, hg.aligned⟩
  exact length_le_of_grid hspan (by rw [hwin]; exact hwn) hg.nodup hg.aligned hin

/-- An instance of `bounded_memory_in_range`: a 10 s window in 3 buckets
(`bucketSpan = 4`), calls at 1000, 1004, 1008, 1011. -/
theorem bounded_memory_in_range_example :
    ∃ s vs, runCalls (⟨10, 5, 4, "p_"⟩ : Restrictor).window
        (⟨10, 5, 4, "p_"⟩ : Restrictor).upperLimit (⟨10, 5, 4, "p_"⟩ : Restrictor).bucketSpan
        NewLimiter [1000, 1004, 1008, 1011] = some (s, vs)
      ∧ s.Buckets.length ≤ 3
      ∧ (s.Buckets.map Prod.fst).Nodup
      ∧ ∀ e ∈ s.Buckets, e.1 % (⟨10, 5, 4, "p_"⟩ : Restrictor).bucketSpan = 0 :=
  bounded_memory_in_range 10 5 3 "p_" ⟨10, 5, 4, "p_"⟩ [1000, 1004, 1008, 1011] (by decide)
    (by decide) (by decide) (by decide) (by simp) (by simp)

/-! ## The capacity invariant -/

/-- C20: for every `(window, limit, bucketSpan > 0)` and every run of
`LimitReached` calls on an empty limiter at non-decreasing times `t` with
`window ≤ t < 2^32`, ending with a call at `now`: all calls return;
immediately after the call at `now` the sum of the counts of the buckets with
timestamp `> now - window`, which is `GetCount(window, now)`, is at most
`limit`; and if the scan branch run on the limiter before that call reports
`reached=true`, its scanned `total` is exactly `limit`. -/
theorem C20_capacity_invariant (window limit interval : Nat) (times : List Int) (now : Int)
    (hw : window < u32) (hl : limit < u32) (hi : 0 < interval)
    (hsorted : times.Chain' (fun a b : Int => a ≤ b))
    (hrange : ∀ t ∈ times, (window : Int) ≤ t ∧ t < 4294967296)
    (hlater : ∀ t ∈ times, t ≤ now) (hnow : (window : Int) ≤ now ∧ now < 4294967296) :
    ∃ s vs s1 v, runCalls window limit interval NewLimiter times = some (s, vs)
      ∧ LimitReached s window limit interval now = some (s1, v)
      ∧ GetCount s1 window now = sumCounts (liveBuckets (unixTs now - window) s1.Buckets)
      ∧ GetCount s1 window now ≤ limit
      ∧ ∀ s2 v2, scanBranch s window limit interval (unixTs now) = some (s2, v2) →
          v2.reached = true →
          (pruneScan (sub32 (unixTs now) window) s.Buckets 0 MaxUint32).1 = limit := by
  have enow : (unixTs now : Int) = now := unixTs_of_range (by omega) hnow.2
  have hts := unixTs_lt now
  have hwt : window ≤ unixTs now := by omega
  obtain ⟨s, vs, tl, hrun, hinv, _, hlast⟩ :=
    Inv_run hw hl hi times NewLimiter 0 (Inv_init window limit)
      (chain_of_chain' hsorted (fun t ht => by have := (hrange t ht).1; omega))
      (fun t ht => (hrange t ht).2)
  have htl : tl ≤ unixTs now := by
    rcases hlast with h0 | ⟨t, ht, h1⟩
    · omega
    · have h2 := hlater t ht
      have h3 := hrange t ht
      have h4 : (unixTs t : Int) = t := unixTs_of_range (by omega) h3.2
      omega
  obtain ⟨s1, v, he, hinv1⟩ := Inv_step now hinv hw hl hi htl
  have hcap := hinv1.cap
  rw [inWindow_eq_liveBuckets _ hwt] at hcap
  have hget : GetCount s1 window now
      = sumCounts (liveBuckets (unixTs now - window) s1.Buckets) := by
    rw [GetCount_eq, sub32_of_le hwt hts, Nat.mod_eq_of_lt (by omega)]
  refine ⟨s, vs, s1, v, hrun, he, hget, by rw [hget]; exact hcap, ?_⟩
  intro s2 v2 hscan hreached
  obtain ⟨hsum, _⟩ := Inv_scan_bound hinv hw htl hts
  have htot := pruneScan_total (sub32 (unixTs now) window) s.Buckets 0 MaxUint32 (by decide)
  rw [Nat.zero_add, Nat.mod_eq_of_lt (by omega)] at htot
  rw [htot]
  by_cases hlt : sumCounts (liveBuckets (sub32 (unixTs now) window) s.Buckets) % u32 < limit
  · rw [scanBranch_admitted (by omega) hlt] at hscan
    simp only [Option.some.injEq, Prod.mk.injEq] at hscan
    rw [← hscan.2] at hreached
    cases hreached
  · rw [Nat.mod_eq_of_lt (by omega)] at hlt
    omega

/-- Witness of C20: `window = 60`, `limit = 2`, `bucketSpan = 1`, calls at 1000
and 1001, then the call at `now = 1002`. -/
theorem C20_capacity_invariant_witness :
    ∃ s vs s1 v, runCalls 60 2 1 NewLimiter [1000, 1001] = some (s, vs)
      ∧ LimitReached s 60 2 1 1002 = some (s1, v)
      ∧ GetCount s1 60 1002 = sumCounts (liveBuckets (unixTs 1002 - 60) s1.Buckets)
      ∧ GetCount s1 60 1002 ≤ 2
      ∧ ∀ s2 v2, scanBranch s 60 2 1 (unixTs 1002) = some (s2, v2) →
          v2.reached = true →
          (pruneScan (sub32 (unixTs 1002) 60) s.Buckets 0 MaxUint32).1 = 2 :=
  C20_capacity_invariant 60 2 1 [1000, 1001] 1002 (by decide) (by decide) (by decide)
    (by simp) (by simp) (by simp) (by decide)

/-! ## When `FullUntil` is reached -/

theorem Counts_init (limit : Nat) : Counts limit NewLimiter := by
  refine ⟨?_, ?_⟩
  · intro e he
    cases he
  · intro h
    exact absurd rfl h

/-- Every returned call with a non-zero bucket span keeps the counts invariant. -/
theorem Counts_step {window limit interval : Nat} {s s1 : Limiter} {tl : Nat} {v : Verdict}
    (now : Int) (hI : Inv window limit s tl) (hC : Counts limit s)
    (hw : window < u32) (hl : limit < u32) (hi : 0 < interval) (htl : tl ≤ unixTs now)
    (hstep : LimitReached s window limit interval now = some (s1, v)) :
    Counts limit s1 := by
  have hts := unixTs_lt now
  obtain ⟨hsum, _⟩ := Inv_scan_bound hI hw htl hts
  rcases LimitReached_cases s window limit interval now hi with
    ⟨_, he⟩ | ⟨_, _, hlt, he⟩ | ⟨_, _, _, he⟩
  · rw [he] at hstep
    simp only [Option.some.injEq, Prod.mk.injEq] at hstep
    rw [← hstep.1]
    exact hC
  · rw [he] at hstep
    simp only [Option.some.injEq, Prod.mk.injEq] at hstep
    rw [← hstep.1]
    rw [Nat.mod_eq_of_lt (by omega)] at hlt
    refine ⟨?_, fun h => absurd rfl h⟩
    apply count_pos_bucketIncr
    · intro e hm
      exact hC.pos e (mem_liveBuckets.1 hm).1
    · intro e hm
      have := mem_le_sumCounts hm
      omega
  · rw [he] at hstep
    simp only [Option.some.injEq, Prod.mk.injEq] at hstep
    rw [← hstep.1]
    refine ⟨?_, fun _ => hsum⟩
    intro e hm
    exact hC.pos e (mem_liveBuckets.1 hm).1

/-- The invariants `Inv` and `Counts` hold along every run of calls at
non-decreasing times that fit a `uint32`, and every such run returns. -/
theorem Counts_run {window limit interval : Nat} (hw : window < u32) (hl : limit < u32)
    (hi : 0 < interval) (times : List Int) :
    ∀ (s : Limiter) (tl : Nat), Inv window limit s tl → Counts limit s →
      List.Chain (fun a b : Int => a ≤ b) (tl : Int) times →
      (∀ t ∈ times, t < 4294967296) →
      ∃ s1 vs tl1, runCalls window limit interval s times = some (s1, vs)
        ∧ Inv window limit s1 tl1 ∧ Counts limit s1
        ∧ (tl1 = tl ∨ ∃ t ∈ times, tl1 = unixTs t) := by
  induction times with
  | nil =>
    intro s tl h hc _ _
    exact ⟨s, [], tl, rfl, h, hc, Or.inl rfl⟩
  | cons t rest ih =>
    intro s tl h hc hch hr
    obtain ⟨hle, hch1⟩ := List.chain_cons.1 hch
    have ht := hr t (List.mem_cons_self _ _)
    have hcast : (unixTs t : Int) = t := unixTs_of_range (by omega) ht
    obtain ⟨s1, v, he, h1⟩ := Inv_step t h hw hl hi (by omega)
    have hc1 := Counts_step t h hc hw hl hi (by omega) he
    obtain ⟨s2, vs, tl2, hrun, h2, hc2, hlast⟩ :=
      ih s1 (unixTs t) h1 hc1 (by rw [hcast]; exact hch1)
        (fun x hx => hr x (List.mem_cons_of_mem _ hx))
    refine ⟨s2, v :: vs, tl2, ?_, h2, hc2, ?_⟩
    · rw [runCalls_cons_some rest he, hrun]
      rfl
    · right
      rcases hlast with h3 | ⟨x, hx, h3⟩
      · exact ⟨t, List.mem_cons_self _ _, h3⟩
      · exact ⟨x, List.mem_cons_of_mem _ hx, h3⟩

theorem sumCounts_liveBuckets_add_le {b : Nat} {l : List (Nat × Nat)} {e : Nat × Nat}
    (he : e ∈ l) (hb : e.1 ≤ b) : sumCounts (liveBuckets b l) + e.2 ≤ sumCounts l := by
  induction l with
  | nil => cases he
  | cons a rest ih =>
    unfold liveBuckets sumCounts at ih ⊢
    rcases List.mem_cons.1 he with rfl | h
    · have hn : ¬ b < e.1 := by omega
      have := sumCounts_liveBuckets_le b rest
      unfold liveBuckets sumCounts at this
      simp only [List.filter_cons, hn, decide_False, List.map_cons, List.sum_cons]
      simp only [Bool.false_eq_true, if_false]
      omega
    · have ih1 := ih h
      by_cases hba : b < a.1
      · simp only [List.filter_cons, hba, decide_True, if_true, List.map_cons, List.sum_cons]
        omega
      · simp only [List.filter_cons, hba, decide_False, List.map_cons, List.sum_cons]
        simp only [Bool.false_eq_true, if_false]
        omega

/-- Under the invariants, when `FullUntil = oldest + window` did not wrap
(`tl + window < 2^32`), a call at a time from `FullUntil` on prunes the oldest
bucket, is admitted and resets `FullUntil` to 0. -/
theorem Inv_release {window limit interval : Nat} {s : Limiter} {tl : Nat} {now : Int}
    (h : Inv window limit s tl) (hc : Counts limit s) (hl0 : 0 < limit)
    (hl : limit < u32) (hi : 0 < interval)
    (hnw : tl + window < u32) (hF : s.FullUntil ≠ 0) (hge : s.FullUntil ≤ unixTs now) :
    ∃ s1 c, LimitReached s window limit interval now = some (s1, ⟨false, c, true, true⟩)
      ∧ s1.FullUntil = 0 := by
  have hts := unixTs_lt now
  have hl1 : limit ≠ 0 := by omega
  obtain ⟨t0, ht0, hkeys, hge0, hfu⟩ := h.full hF
  have hlive0 : liveBuckets (sub32 t0 window) s.Buckets = s.Buckets :=
    liveBuckets_eq_self (fun e he => (hkeys e he).1)
  have htot0 := pruneScan_total (sub32 t0 window) s.Buckets 0 MaxUint32 (by decide)
  rw [Nat.zero_add, hlive0] at htot0
  obtain ⟨_, ho2, ho3⟩ := pruneScan_oldest (sub32 t0 window) s.Buckets 0 MaxUint32
  rw [hlive0] at ho2 ho3
  have hnil : s.Buckets ≠ [] := by
    intro hnil
    rw [htot0, hnil] at hge0
    simp [sumCounts] at hge0
    omega
  obtain ⟨e0, he0⟩ := List.exists_mem_of_ne_nil _ hnil
  have hold : ∃ e ∈ s.Buckets, e.1 = (pruneScan (sub32 t0 window) s.Buckets 0 MaxUint32).2.1 := by
    rcases ho3 with ho3 | ho3
    · refine ⟨e0, he0, ?_⟩
      have h1 := ho2 e0 he0
      have h2 := (hkeys e0 he0).2
      rw [ho3] at h1 ⊢
      unfold MaxUint32 at *
      unfold u32 at hnw
      omega
    · exact ho3
  obtain ⟨eo, heo, heq⟩ := hold
  obtain ⟨_, hk2⟩ := hkeys eo heo
  rw [← heq] at hfu
  have hfu1 : s.FullUntil = eo.1 + window := by
    rw [hfu]
    unfold add32
    exact Nat.mod_eq_of_lt (by omega)
  have hb : sub32 (unixTs now) window = unixTs now - window := sub32_of_le (by omega) hts
  have hsum := hc.full_cap hF
  have hpos := hc.pos eo heo
  have hlt : sumCounts (liveBuckets (sub32 (unixTs now) window) s.Buckets) % u32 < limit := by
    have h1 := sumCounts_liveBuckets_add_le (b := sub32 (unixTs now) window) heo
      (by rw [hb]; omega)
    rw [Nat.mod_eq_of_lt (by omega)]
    omega
  refine ⟨⟨0, bucketIncr (unixTs now - unixTs now % interval)
      (liveBuckets (sub32 (unixTs now) window) s.Buckets)⟩,
    add32 (sumCounts (liveBuckets (sub32 (unixTs now) window) s.Buckets) % u32) 1, ?_, rfl⟩
  rw [LimitReached_eq_scanBranch hl1 (by omega), scanBranch_admitted (by omega) hlt]

/-- For every limiter reached from the empty limiter by `LimitReached` calls at
non-decreasing times `t` with `0 ≤ t` and `t + window < 2^32` (so that
`FullUntil = oldest + window` does not wrap): if `FullUntil = F > 0`, the next
call at any time `now ≥ F` is admitted and resets `FullUntil` to 0. -/
theorem FullUntil_release_without_wrap (window limit interval : Nat) (times : List Int)
    (now : Int) (s : Limiter) (vs : List Verdict) (hw : window < u32) (hl0 : 0 < limit)
    (hl : limit < u32) (hi : 0 < interval)
    (hrun : runCalls window limit interval NewLimiter times = some (s, vs))
    (hsorted : times.Chain' (fun a b : Int => a ≤ b))
    (hrange : ∀ t ∈ times, 0 ≤ t ∧ t + (window : Int) < 4294967296)
    (hnow : now < 4294967296)
    (hF : 0 < s.FullUntil) (hge : (s.FullUntil : Int) ≤ now) :
    ∃ s1 c, LimitReached s window limit interval now = some (s1, ⟨false, c, true, true⟩)
      ∧ s1.FullUntil = 0 := by
  obtain ⟨s1, vs1, tl, hrun1, hinv, hcnt, hlast⟩ :=
    Counts_run hw hl hi times NewLimiter 0 (Inv_init window limit) (Counts_init limit)
      (chain_of_chain' hsorted (fun t ht => (hrange t ht).1))
      (fun t ht => by have := (hrange t ht).2; omega)
  rw [hrun] at hrun1
  simp only [Option.some.injEq, Prod.mk.injEq] at hrun1
  obtain ⟨rfl, rfl⟩ := hrun1
  have enow : (unixTs now : Int) = now := unixTs_of_range (by omega) hnow
  refine Inv_release hinv hcnt hl0 hl hi ?_ (by omega) (by omega)
  · rcases hlast with h0 | ⟨t, ht, h1⟩
    · rw [h0]
      omega
    · have h3 := hrange t ht
      have h4 : (unixTs t : Int) = t := unixTs_of_range h3.1 (by omega)
      unfold u32
      omega

/-- C18 (the code at the failing input): `window = 10`, `limit = 1`,
`bucketSpan = 1`. The call at 4294967291 is admitted; the call at 4294967292 is
rejected and leaves `FullUntil = (4294967291 + 10) mod 2^32 = 5 > 0`; the next
call, at `now = 4294967293 ≥ 5`, is rejected again and leaves `FullUntil = 5`:
it is not admitted and `FullUntil` is not reset. -/
theorem C18_fullUntil_wraps :
    runCalls 10 1 1 NewLimiter [4294967291, 4294967292]
      = some (⟨5, [(4294967291, 1)]⟩, [⟨false, 1, true, true⟩, ⟨true, 1, true, false⟩])
    ∧ add32 4294967291 10 = 5
    ∧ LimitReached ⟨5, [(4294967291, 1)]⟩ 10 1 1 4294967293
      = some (⟨5, [(4294967291, 1)]⟩, ⟨true, 1, true, false⟩) := by
  decide

/-! ## The conversions of `Duration.Seconds()` on some inputs -/

/-- The `float64` rounding of `Seconds()` and the saturation of `Time.Sub` in
the model: 20000000.999999999 s converts to 20000001 (the sum rounds up),
60.5 s to 60; the zero `time.Time` (year 1) minus a time in 2001 saturates at
the least `Duration`, whose seconds truncate to -9223372036. -/
theorem seconds_conversions :
    durationSec 4294967295 20000000999999999 = 20000001
    ∧ durationSec 4294967295 60500000000 = 60
    ∧ durationSec 4294967295 (-1000000000) = 4294967295
    ∧ remainingSeconds (-62135596800000000000) 1000000000000000000 = -9223372036
    ∧ remainingSeconds 1060000000000 1020000000000 = 40 := by
  decide

/-! ## Rejected calls on the states the code reaches -/

theorem liveBuckets_eq_self_of_sum {b : Nat} {l : List (Nat × Nat)}
    (hp : ∀ e ∈ l, 1 ≤ e.2) (hs : sumCounts l ≤ sumCounts (liveBuckets b l)) :
    liveBuckets b l = l := by
  induction l with
  | nil => rfl
  | cons a rest ih =>
    have hrest := sumCounts_liveBuckets_le b rest
    have hpa := hp a (List.mem_cons_self _ _)
    have hcons : ∀ l : List (Nat × Nat), sumCounts (a :: l) = a.2 + sumCounts l :=
      fun _ => rfl
    by_cases hba : b < a.1
    · have hl : liveBuckets b (a :: rest) = a :: liveBuckets b rest := by
        simp [liveBuckets, hba]
      rw [hl, hcons, hcons] at hs
      rw [hl, ih (fun e he => hp e (List.mem_cons_of_mem _ he)) (by omega)]
    · exfalso
      have hl : liveBuckets b (a :: rest) = liveBuckets b rest := by
        simp [liveBuckets, hba]
      rw [hl, hcons] at hs
      omega

theorem Tally_init (limit : Nat) : Tally limit NewLimiter := by
  refine ⟨by simp [NewLimiter, sumCounts], ?_⟩
  intro e he
  cases he

/-- Every returned call, at any time and with any window and bucket span, keeps
the tally invariant; and a rejected call leaves the buckets as they were: a
rejecting scan finds `limit` events above the boundary, which are all the
events there are, so it prunes nothing. -/
theorem Tally_step {window limit interval : Nat} {s s1 : Limiter} {v : Verdict} (now : Int)
    (h : Tally limit s) (hl : limit < u32)
    (hstep : LimitReached s window limit interval now = some (s1, v)) :
    Tally limit s1 ∧ (v.reached = true → s1.Buckets = s.Buckets) := by
  by_cases hl0 : limit = 0
  · subst hl0
    simp only [LimitReached, if_true, Option.some.injEq, Prod.mk.injEq] at hstep
    rw [← hstep.1]
    exact ⟨h, fun _ => rfl⟩
  · by_cases hf : unixTs now < s.FullUntil
    · simp only [LimitReached, hl0, hf, if_true, if_false, Option.some.injEq,
        Prod.mk.injEq] at hstep
      rw [← hstep.1]
      exact ⟨h, fun _ => rfl⟩
    · rw [LimitReached_eq_scanBranch hl0 hf] at hstep
      have hle := sumCounts_liveBuckets_le (sub32 (unixTs now) window) s.Buckets
      have htl := h.total_le
      by_cases hlt : sumCounts (liveBuckets (sub32 (unixTs now) window) s.Buckets) % u32
          < limit
      · by_cases hi : interval = 0
        · simp [scanBranch, pruneScan_total _ _ _ _ (show 0 < u32 by decide), hlt, hi] at hstep
        · rw [scanBranch_admitted hi hlt] at hstep
          simp only [Option.some.injEq, Prod.mk.injEq] at hstep
          rw [← hstep.1, ← hstep.2]
          rw [Nat.mod_eq_of_lt (by omega)] at hlt
          refine ⟨⟨?_, ?_⟩, fun hr => by cases hr⟩
          · show sumCounts (bucketIncr _ _) ≤ limit
            rw [sumCounts_bucketIncr]
            · omega
            · intro e hm
              have := mem_le_sumCounts hm
              omega
          · apply count_pos_bucketIncr
            · intro e hm
              exact h.pos e (mem_liveBuckets.1 hm).1
            · intro e hm
              have := mem_le_sumCounts hm
              omega
      · rw [scanBranch_rejected (by omega)] at hstep
        simp only [Option.some.injEq, Prod.mk.injEq] at hstep
        rw [← hstep.1]
        rw [Nat.mod_eq_of_lt (by omega)] at hlt
        have hsame : liveBuckets (sub32 (unixTs now) window) s.Buckets = s.Buckets :=
          liveBuckets_eq_self_of_sum h.pos (by omega)
        refine ⟨⟨?_, ?_⟩, fun _ => hsame⟩
        · show sumCounts (liveBuckets _ _) ≤ limit
          omega
        · intro e hm
          exact h.pos e (mem_liveBuckets.1 hm).1

theorem runCalls_cons_inv {window limit interval : Nat} {s s2 : Limiter} {t : Int}
    {rest : List Int} {vs : List Verdict}
    (h : runCalls window limit interval s (t :: rest) = some (s2, vs)) :
    ∃ s1 v vs1, LimitReached s window limit interval t = some (s1, v)
      ∧ runCalls window limit interval s1 rest = some (s2, vs1) := by
  rw [runCalls] at h
  cases h1 : LimitReached s window limit interval t with
  | none => simp [h1] at h
  | some p =>
    obtain ⟨s1, v⟩ := p
    simp only [h1] at h
    cases h2 : runCalls window limit interval s1 rest with
    | none => simp [h2] at h
    | some q =>
      obtain ⟨s3, vs1⟩ := q
      simp only [h2, Option.some.injEq, Prod.mk.injEq] at h
      exact ⟨s1, v, vs1, rfl, by rw [h2, h.1]⟩

/-- The tally invariant holds after every run of calls that returns, whatever
the times of the calls. -/
theorem Tally_run {window limit interval : Nat} (hl : limit < u32) (times : List Int) :
    ∀ (s s1 : Limiter) (vs : List Verdict), Tally limit s →
      runCalls window limit interval s times = some (s1, vs) → Tally limit s1 := by
  induction times with
  | nil =>
    intro s s1 vs h hrun
    simp only [runCalls, Option.some.injEq, Prod.mk.injEq] at hrun
    rw [← hrun.1]
    exact h
  | cons t rest ih =>
    intro s s2 vs h hrun
    obtain ⟨s1, v, vs1, hstep, hrest⟩ := runCalls_cons_inv hrun
    exact ih s1 s2 vs1 (Tally_step t h hl hstep).1 hrest

/-- C8: for every limiter the code can hold, that is every limiter `s` reached
from the empty limiter by `LimitReached` calls with one `(window, limit,
bucketSpan)` at any times at all (in any order, wrapped or not), and every
`LimitReached(window, limit, bucketSpan, now)` call on it that returns
`reached=true` (limit 0, fast path or rejecting scan): the call leaves the
buckets as they were, so `GetCount(w, now)` has the same value before and after
the call, for every `w` (in particular every `w ≤ window`). -/
theorem C8_rejected_call_keeps_count (window limit interval w : Nat) (times : List Int)
    (now : Int) (s s1 : Limiter) (vs : List Verdict) (v : Verdict) (hl : limit < u32)
    (hrun : runCalls window limit interval NewLimiter times = some (s, vs))
    (hcall : LimitReached s window limit interval now = some (s1, v))
    (hrej : v.reached = true) :
    s1.Buckets = s.Buckets ∧ GetCount s1 w now = GetCount s w now := by
  have htally := Tally_run hl times NewLimiter s vs (Tally_init limit) hrun
  have hsame := (Tally_step now htally hl hcall).2 hrej
  exact ⟨hsame, by unfold GetCount; rw [hsame]⟩

/-- Witness of C8: `window = 60`, `limit = 2`, `bucketSpan = 1`; after the calls
at 1000, 1030 and 1061, all admitted, the call at `now = 1062` is rejected by
the scan and only sets `FullUntil`; `w = 30`. -/
theorem C8_rejected_call_keeps_count_witness :
    (⟨1090, [(1030, 1), (1061, 1)]⟩ : Limiter).Buckets
        = (⟨0, [(1030, 1), (1061, 1)]⟩ : Limiter).Buckets
    ∧ GetCount ⟨1090, [(1030, 1), (1061, 1)]⟩ 30 1062
        = GetCount ⟨0, [(1030, 1), (1061, 1)]⟩ 30 1062 :=
  C8_rejected_call_keeps_count 60 2 1 30 [1000, 1030, 1061] 1062
    ⟨0, [(1030, 1), (1061, 1)]⟩ ⟨1090, [(1030, 1), (1061, 1)]⟩
    [⟨false, 1, true, true⟩, ⟨false, 2, true, true⟩, ⟨false, 2, true, true⟩]
    ⟨true, 2, true, false⟩ (by decide) (by decide) (by decide) (by decide)

/-! ## The code at inputs where the Unix time wraps -/

/-- C3 (the code at the failing input): `window = 10`, `limit = 1`,
`bucketSpan = 1`. The call at `t = 3` is admitted, the call at `t = 12` is
rejected and leaves `FullUntil = 13`. The later call at `now = 2^32 + 5` has
`uint32(now.Unix()) = 5 < 13` and takes the fast path: `reached=true, count=1`,
limiter untouched. The scan branch at that `now` prunes the bucket at 3 and
admits with count 1, leaving another limiter; and `GetCount(10, now)` is 0, so
the window is not at capacity. -/
theorem C3_fast_path_after_wrap :
    runCalls 10 1 1 NewLimiter [3, 12]
      = some (⟨13, [(3, 1)]⟩, [⟨false, 1, true, true⟩, ⟨true, 1, true, false⟩])
    ∧ unixTs 4294967301 = 5
    ∧ LimitReached ⟨13, [(3, 1)]⟩ 10 1 1 4294967301
      = some (⟨13, [(3, 1)]⟩, ⟨true, 1, false, false⟩)
    ∧ scanBranch ⟨13, [(3, 1)]⟩ 10 1 1 (unixTs 4294967301)
      = some (⟨0, [(5, 1)]⟩, ⟨false, 1, true, true⟩)
    ∧ GetCount ⟨13, [(3, 1)]⟩ 10 4294967301 = 0 := by
  decide

/-- C5 (the code at the failing input): the limiter with the single bucket
`0 ↦ 1`, `window = 10`, `limit = 5`, `bucketSpan = 1`, `now = 9`. Over the
integers `boundary = 9 - 10 = -1`, the bucket at 0 is above it, `total = 1`, and
the description gives the buckets `{0 ↦ 1, 9 ↦ 1}` and the result
`(false, 2, true, true)`. The code computes `boundary = 4294967295`, deletes the
bucket at 0 and returns `(false, 1, true, true)` with the buckets `{9 ↦ 1}`. -/
theorem C5_scan_prunes_inside_window :
    (9 : Int) - 10 < ((0 : Nat) : Int)
    ∧ sumCounts (([(0, 1)] : List (Nat × Nat)).filter
        (fun e => decide ((9 : Int) - 10 < (e.1 : Int)))) = 1
    ∧ sub32 (unixTs 9) 10 = 4294967295
    ∧ LimitReached ⟨0, [(0, 1)]⟩ 10 5 1 9 = some (⟨0, [(9, 1)]⟩, ⟨false, 1, true, true⟩)
    ∧ bucketAt 0 [(9, 1)] = none := by
  decide

/-- C16 (the code at the failing input): the restrictor built for a 10 s window,
`limit = 20` and 10 buckets has `bucketSpan = 1`. After the calls at
`2^32 - 3, 2^32 - 2, 2^32 - 1` and then at `2^32 + 10, ..., 2^32 + 19`, all
admitted, the limiter holds 13 buckets: the three buckets stamped before the
wrap are above every later boundary and are never pruned. -/
theorem C16_buckets_exceed_after_wrap :
    NewRestrictor 10 20 10 "p_" = some ⟨10, 20, 1, "p_"⟩
    ∧ (runCalls 10 20 1 NewLimiter
        [4294967293, 4294967294, 4294967295, 4294967306, 4294967307, 4294967308,
          4294967309, 4294967310, 4294967311, 4294967312, 4294967313, 4294967314,
          4294967315]).map (fun p => (p.1.Buckets.length, admittedCount p.2))
      = some (13, 13) := by
  decide

end restrictor
